import Mathlib

/-!
# Verification of the planetutils MBTiles cutout core

This file gives a shallow embedding, in Lean 4, of the tile-cutting core of
the `planetutils` repository:

* `tile_math.py` — coordinate transforms (`lon_to_tile_x`, `lat_to_tile_y`,
  `tile_center_lonlat`), the ray-casting containment test
  (`point_in_polygon`), ring extraction (`get_polygon_coords`) and candidate
  enumeration (`get_tiles_in_bbox`);
* `mbtiles_cutter.py` — the `MBTilesCutter` engine (`process_features`,
  `_process_single_feature`, `_delete_tiles`).

Python floats are modelled by exact real numbers (`ℝ`); Python's `int(x)`
truncation-toward-zero is modelled by `pytrunc`.  The containment test is
kept generic over a `LinearOrderedField` so that it can be executed over `ℚ`
while the engine instantiates it at `ℝ`.  The SQLite `tiles` table is
modelled as a list of its key triples `(zoom_level, tile_column, tile_row)`
(the opaque `tile_data` payload is never consulted by the code under study);
`cursor.execute`d DELETE statements and `conn.commit()` are recorded as an
explicit event trace.  A Python run that would raise an exception is
modelled by `Option.none`.
-/

namespace Planetutils

/-! ## Consecutive pairs of a list (the edges walked by the ray-casting loop) -/

/-- The list of consecutive pairs of `l`.  The ray-casting loop of
`point_in_polygon` walks exactly the consecutive pairs of
`polygon[0] :: (polygon.rotate 1)`, i.e. of `p0 :: rest ++ [p0]`. -/
def consPairs {β : Type} (l : List β) : List (β × β) := l.zip l.tail

@[simp] theorem consPairs_nil {β : Type} : consPairs ([] : List β) = [] := rfl

@[simp] theorem consPairs_single {β : Type} (a : β) : consPairs [a] = [] := rfl

@[simp] theorem consPairs_cons_cons {β : Type} (a b : β) (t : List β) :
    consPairs (a :: b :: t) = (a, b) :: consPairs (b :: t) := rfl

/-! ## `point_in_polygon` (tile_math.py, lines 38–70)

```python
def point_in_polygon(point, polygon):
    x, y = point
    n = len(polygon)
    inside = False
    p1x, p1y = polygon[0]
    for i in range(1, n + 1):
        p2x, p2y = polygon[i % n]
        if y > min(p1y, p2y):
            if y <= max(p1y, p2y):
                if x <= max(p1x, p2x):
                    if p1y != p2y:
                        xinters = (y - p1y) * (p2x - p1x) / (p2y - p1y) + p1x
                    if p1x == p2x or x <= xinters:
                        inside = not inside
        p1x, p1y = p2x, p2y
    return inside
```

The local variable `xinters` can hold a value left over from an earlier
iteration (or be unassigned, in which case reading it raises `NameError`);
the state below models this faithfully with an `Option` slot, and reading an
unassigned slot aborts the whole call (result `none`).  `polygon[0]` on an
empty list raises `IndexError`, also modelled by `none`. -/

/-- Loop state of `point_in_polygon`: the current first edge endpoint
`p1`, the last value assigned to `xinters` (if any), the `inside` flag and an
exception flag. -/
structure PipState (α : Type) where
  p1 : α × α
  xinters : Option α
  inside : Bool
  err : Bool

/-- One iteration of the `point_in_polygon` loop, processing the edge from
`st.p1` to `p2`, faithful to the Python including the possibly-stale
`xinters` slot. -/
def pipStep {α : Type} [LinearOrderedField α] (x y : α) (st : PipState α) (p2 : α × α) :
    PipState α :=
  if y > min st.p1.2 p2.2 ∧ y ≤ max st.p1.2 p2.2 ∧ x ≤ max st.p1.1 p2.1 then
    let xi := if st.p1.2 ≠ p2.2 then
        some ((y - st.p1.2) * (p2.1 - st.p1.1) / (p2.2 - st.p1.2) + st.p1.1)
      else st.xinters
    if st.p1.1 = p2.1 then ⟨p2, xi, !st.inside, st.err⟩
    else
      match xi with
      | none => ⟨p2, xi, st.inside, true⟩
      | some v => ⟨p2, xi, if x ≤ v then !st.inside else st.inside, st.err⟩
  else ⟨p2, st.xinters, st.inside, st.err⟩

/-- `point_in_polygon(point, polygon)` from `tile_math.py`.  Returns `none`
when the Python raises (`IndexError` on an empty ring, `NameError` on a read
of the never-assigned `xinters`). -/
def point_in_polygon {α : Type} [LinearOrderedField α] (point : α × α)
    (polygon : List (α × α)) : Option Bool :=
  match polygon with
  | [] => none
  | p0 :: rest =>
    let fin := (rest ++ [p0]).foldl (pipStep point.1 point.2) ⟨p0, none, false, false⟩
    if fin.err then none else some fin.inside

/-- Instrumented variant of `pipStep` that additionally flags an error
whenever the guarded branch would consult `xinters` without it having been
assigned *in the current iteration* (i.e. when `p1y = p2y` there): used to
state that the division is never reached with a zero divisor and that
`xinters` is never read stale. -/
def pipStepStrict {α : Type} [LinearOrderedField α] (x y : α) (st : PipState α)
    (p2 : α × α) : PipState α :=
  if y > min st.p1.2 p2.2 ∧ y ≤ max st.p1.2 p2.2 ∧ x ≤ max st.p1.1 p2.1 then
    let xi := if st.p1.2 ≠ p2.2 then
        some ((y - st.p1.2) * (p2.1 - st.p1.1) / (p2.2 - st.p1.2) + st.p1.1)
      else st.xinters
    if st.p1.1 = p2.1 then ⟨p2, xi, !st.inside, st.err⟩
    else if st.p1.2 ≠ p2.2 then
      ⟨p2, xi,
        if x ≤ (y - st.p1.2) * (p2.1 - st.p1.1) / (p2.2 - st.p1.2) + st.p1.1 then
          !st.inside
        else st.inside, st.err⟩
    else ⟨p2, xi, st.inside, true⟩
  else ⟨p2, st.xinters, st.inside, st.err⟩

/-- `point_in_polygon` run with the instrumented step. -/
def point_in_polygon_strict {α : Type} [LinearOrderedField α] (point : α × α)
    (polygon : List (α × α)) : Option Bool :=
  match polygon with
  | [] => none
  | p0 :: rest =>
    let fin := (rest ++ [p0]).foldl (pipStepStrict point.1 point.2) ⟨p0, none, false, false⟩
    if fin.err then none else some fin.inside

/-- Whether the ray from `(x, y)` to the right crosses the edge `e`
(with the division written as total field division; when the divisor is zero
the guards are unsatisfiable, so the junk value is never consulted). -/
def edgeCross {α : Type} [LinearOrderedField α] (x y : α) (e : (α × α) × α × α) : Bool :=
  decide ((y > min e.1.2 e.2.2 ∧ y ≤ max e.1.2 e.2.2 ∧ x ≤ max e.1.1 e.2.1) ∧
    (e.1.1 = e.2.1 ∨ x ≤ (y - e.1.2) * (e.2.1 - e.1.1) / (e.2.2 - e.1.2) + e.1.1))

/-- Mathematical restatement of `point_in_polygon` for a nonempty ring:
the parity of the number of crossed edges. -/
def pipFresh {α : Type} [LinearOrderedField α] (point : α × α) :
    List (α × α) → Bool
  | [] => false
  | p0 :: rest =>
    Nat.bodd ((consPairs (p0 :: (rest ++ [p0]))).countP (edgeCross point.1 point.2))

/-- The crossing condition as a proposition. -/
def EdgeCrossP {α : Type} [LinearOrderedField α] (x y : α) (e : (α × α) × α × α) : Prop :=
  (y > min e.1.2 e.2.2 ∧ y ≤ max e.1.2 e.2.2 ∧ x ≤ max e.1.1 e.2.1) ∧
    (e.1.1 = e.2.1 ∨ x ≤ (y - e.1.2) * (e.2.1 - e.1.1) / (e.2.2 - e.1.2) + e.1.1)

instance {α : Type} [LinearOrderedField α] (x y : α) (e : (α × α) × α × α) :
    Decidable (EdgeCrossP x y e) := by
  unfold EdgeCrossP; infer_instance

theorem edgeCross_eq_true_iff {α : Type} [LinearOrderedField α] (x y : α)
    (e : (α × α) × α × α) : edgeCross x y e = true ↔ EdgeCrossP x y e := by
  unfold edgeCross EdgeCrossP
  exact decide_eq_true_iff

/-- If `y` lies strictly between `min a b` (exclusive) and `max a b`
(inclusive) then `a ≠ b`. -/
theorem ne_of_gt_min_le_max {α : Type} [LinearOrder α] {y a b : α}
    (h1 : y > min a b) (h2 : y ≤ max a b) : a ≠ b := by
  rintro rfl
  simp only [min_self, max_self] at h1 h2
  exact absurd h2 (not_le.mpr h1)

/-- The instrumented step agrees with the faithful step everywhere: the
branch that would consult a stale `xinters` is unreachable. -/
theorem pipStep_eq_strict {α : Type} [LinearOrderedField α] (x y : α)
    (st : PipState α) (p2 : α × α) :
    pipStep x y st p2 = pipStepStrict x y st p2 := by
  unfold pipStep pipStepStrict
  by_cases hg : y > min st.p1.2 p2.2 ∧ y ≤ max st.p1.2 p2.2 ∧ x ≤ max st.p1.1 p2.1
  · have hne : st.p1.2 ≠ p2.2 := ne_of_gt_min_le_max hg.1 hg.2.1
    rw [if_pos hg, if_pos hg]
    simp only [if_pos hne]
  · rw [if_neg hg, if_neg hg]

/-- The moved-on vertex of one faithful loop step is the processed edge's
second endpoint. -/
theorem pipStep_p1 {α : Type} [LinearOrderedField α] (x y : α)
    (st : PipState α) (p2 : α × α) : (pipStep x y st p2).p1 = p2 := by
  unfold pipStep
  by_cases hg : y > min st.p1.2 p2.2 ∧ y ≤ max st.p1.2 p2.2 ∧ x ≤ max st.p1.1 p2.1
  · rw [if_pos hg]
    by_cases hne : st.p1.2 ≠ p2.2
    · simp only [if_pos hne]
      by_cases hx : st.p1.1 = p2.1
      · rw [if_pos hx]
      · rw [if_neg hx]
    · simp only [if_neg hne]
      by_cases hx : st.p1.1 = p2.1
      · rw [if_pos hx]
      · rw [if_neg hx]
        rcases st.xinters with _ | v <;> rfl
  · rw [if_neg hg]

/-- The `inside` flag after one faithful loop step toggles exactly on a
crossed edge. -/
theorem pipStep_inside {α : Type} [LinearOrderedField α] (x y : α)
    (st : PipState α) (p2 : α × α) :
    (pipStep x y st p2).inside =
      (if EdgeCrossP x y (st.p1, p2) then !st.inside else st.inside) := by
  unfold pipStep
  by_cases hg : y > min st.p1.2 p2.2 ∧ y ≤ max st.p1.2 p2.2 ∧ x ≤ max st.p1.1 p2.1
  · have hne : st.p1.2 ≠ p2.2 := ne_of_gt_min_le_max hg.1 hg.2.1
    rw [if_pos hg]
    simp only [if_pos hne]
    by_cases hx : st.p1.1 = p2.1
    · rw [if_pos hx]
      have hc : EdgeCrossP x y (st.p1, p2) := ⟨hg, Or.inl hx⟩
      rw [if_pos hc]
    · rw [if_neg hx]
      by_cases hcmp : x ≤ (y - st.p1.2) * (p2.1 - st.p1.1) / (p2.2 - st.p1.2) + st.p1.1
      · have hc : EdgeCrossP x y (st.p1, p2) := ⟨hg, Or.inr hcmp⟩
        simp [hcmp, hc]
      · have hc : ¬ EdgeCrossP x y (st.p1, p2) := by
          intro hc
          rcases hc.2 with h | h
          · exact hx h
          · exact hcmp h
        simp [hcmp, hc]
  · rw [if_neg hg]
    have hc : ¬ EdgeCrossP x y (st.p1, p2) := fun hc => hg hc.1
    rw [if_neg hc]

/-- The `inside` flag computed by the loop is the initial flag xor-ed with
the parity of the number of crossed edges along the walked path; the
`xinters` slot never influences the result. -/
theorem foldl_pipStep_inside {α : Type} [LinearOrderedField α] (x y : α) :
    ∀ (l : List (α × α)) (st : PipState α),
      ((l.foldl (pipStep x y) st).inside) =
        xor st.inside (Nat.bodd ((consPairs (st.p1 :: l)).countP (edgeCross x y)))
  | [], st => by simp [consPairs]
  | p2 :: t, st => by
    rw [List.foldl_cons, consPairs_cons_cons,
      foldl_pipStep_inside x y t (pipStep x y st p2), pipStep_p1, pipStep_inside,
      List.countP_cons]
    by_cases hc : EdgeCrossP x y (st.p1, p2)
    · have hb : edgeCross x y (st.p1, p2) = true := (edgeCross_eq_true_iff x y _).mpr hc
      rw [if_pos hc]
      simp only [hb, if_pos]
      rw [Nat.bodd_add]
      cases st.inside <;>
        cases Nat.bodd (List.countP (edgeCross x y) (consPairs (p2 :: t))) <;> simp
    · have hb : ¬ edgeCross x y (st.p1, p2) = true := fun h =>
        hc ((edgeCross_eq_true_iff x y _).mp h)
      rw [if_neg hc]
      simp [hb]

/-- Running the instrumented loop from an error-free state never sets the
error flag. -/
theorem foldl_pipStepStrict_err {α : Type} [LinearOrderedField α] (x y : α) :
    ∀ (l : List (α × α)) (st : PipState α), st.err = false →
      ((l.foldl (pipStepStrict x y) st).err = false)
  | [], _, h => h
  | p2 :: t, st, h => by
    rw [List.foldl_cons]
    refine foldl_pipStepStrict_err x y t _ ?_
    unfold pipStepStrict
    by_cases hg : y > min st.p1.2 p2.2 ∧ y ≤ max st.p1.2 p2.2 ∧ x ≤ max st.p1.1 p2.1
    · have hne : st.p1.2 ≠ p2.2 := ne_of_gt_min_le_max hg.1 hg.2.1
      rw [if_pos hg]
      by_cases hx : st.p1.1 = p2.1
      · simpa [hx] using h
      · simp only [if_neg hx, if_pos hne]
        exact h
    · rw [if_neg hg]; exact h

/-- For a nonempty ring the faithful `point_in_polygon` succeeds and computes
the crossing parity `pipFresh`. -/
theorem point_in_polygon_eq_fresh {α : Type} [LinearOrderedField α] (point : α × α)
    (p0 : α × α) (rest : List (α × α)) :
    point_in_polygon point (p0 :: rest) = some (pipFresh point (p0 :: rest)) := by
  unfold point_in_polygon pipFresh
  have herr : ((rest ++ [p0]).foldl (pipStep point.1 point.2)
      ⟨p0, none, false, false⟩).err = false := by
    have hsw : ∀ (l : List (α × α)) (st : PipState α),
        l.foldl (pipStep point.1 point.2) st = l.foldl (pipStepStrict point.1 point.2) st := by
      intro l
      induction l with
      | nil => intro st; rfl
      | cons a t ih =>
        intro st
        rw [List.foldl_cons, List.foldl_cons, pipStep_eq_strict, ih]
    rw [hsw]
    exact foldl_pipStepStrict_err _ _ _ _ rfl
  simp only [herr, Bool.false_eq_true, if_neg, if_false]
  rw [foldl_pipStep_inside]
  simp

/-! ## Ring invariances of the crossing count -/

/-- Appending one element to a list adds a single closing pair (if any) to
its list of consecutive pairs. -/
theorem consPairs_append_one {β : Type} :
    ∀ (l : List β) (x : β),
      consPairs (l ++ [x]) = consPairs l ++
        (match l.getLast? with
         | none => []
         | some c => [(c, x)])
  | [], x => by simp [consPairs]
  | [a], x => by simp [consPairs]
  | a :: b :: t, x => by
    have ih := consPairs_append_one (b :: t) x
    simp only [List.cons_append] at ih ⊢
    rw [consPairs_cons_cons, ih, List.getLast?_cons_cons]
    simp

theorem consPairs_reverse {β : Type} :
    ∀ (l : List β), consPairs l.reverse = ((consPairs l).reverse).map Prod.swap
  | [] => by simp [consPairs]
  | [a] => by simp [consPairs]
  | a :: b :: t => by
    rw [List.reverse_cons, consPairs_append_one ((b :: t).reverse) a,
      List.getLast?_reverse, consPairs_reverse (b :: t), consPairs_cons_cons]
    simp

theorem edgeCross_swap {α : Type} [LinearOrderedField α] (x y : α)
    (p q : α × α) : edgeCross x y (q, p) = edgeCross x y (p, q) := by
  have key : ∀ a b : α × α, EdgeCrossP x y (a, b) → EdgeCrossP x y (b, a) := by
    rintro ⟨ax, ay⟩ ⟨bx, by'⟩ ⟨⟨g1, g2, g3⟩, hd⟩
    have hne : ay ≠ by' := ne_of_gt_min_le_max g1 g2
    refine ⟨⟨by rwa [min_comm], by rwa [max_comm], by rwa [max_comm]⟩, ?_⟩
    rcases hd with h | h
    · exact Or.inl h.symm
    · refine Or.inr ?_
      have hxeq : (y - ay) * (bx - ax) / (by' - ay) + ax =
          (y - by') * (ax - bx) / (ay - by') + bx := by
        have h1 : by' - ay ≠ 0 := sub_ne_zero.mpr (Ne.symm hne)
        have h2 : ay - by' ≠ 0 := sub_ne_zero.mpr hne
        field_simp
        ring
      simpa [hxeq] using h
  rcases hb : edgeCross x y (p, q) with _ | _
  · rcases hb2 : edgeCross x y (q, p) with _ | _
    · rfl
    · exfalso
      have h2 := (edgeCross_eq_true_iff x y (q, p)).mp hb2
      have h3 := key q p h2
      have := (edgeCross_eq_true_iff x y (p, q)).mpr h3
      rw [hb] at this
      exact Bool.false_ne_true this
  · have h2 := (edgeCross_eq_true_iff x y (p, q)).mp hb
    exact (edgeCross_eq_true_iff x y (q, p)).mpr (key p q h2)

theorem edgeCross_self {α : Type} [LinearOrderedField α] (x y : α) (v : α × α) :
    edgeCross x y (v, v) = false := by
  rw [← Bool.not_eq_true]
  intro h
  have hc := (edgeCross_eq_true_iff x y (v, v)).mp h
  exact (ne_of_gt_min_le_max hc.1.1 hc.1.2.1) rfl

/-- `pipFresh` for a nonempty ring, phrased with the closing edge appended. -/
theorem pipFresh_eq_countP {α : Type} [LinearOrderedField α] (point : α × α)
    (a : α × α) (t : List (α × α)) :
    pipFresh point (a :: t) =
      Nat.bodd ((consPairs ((a :: t) ++ [a])).countP (edgeCross point.1 point.2)) := by
  rfl

/-- Reversing a (nonempty) ring does not change the crossing parity. -/
theorem pipFresh_reverse {α : Type} [LinearOrderedField α] (point : α × α)
    (a : α × α) (t : List (α × α)) :
    pipFresh point ((a :: t).reverse) = pipFresh point (a :: t) := by
  obtain ⟨c, s, hcs⟩ : ∃ c s, (a :: t).reverse = c :: s := by
    rcases hr : (a :: t).reverse with _ | ⟨c, s⟩
    · exact absurd hr (by simp)
    · exact ⟨c, s, rfl⟩
  have hlast : (a :: t).getLast? = some c := by
    have h := List.getLast?_reverse ((a :: t).reverse)
    rw [List.reverse_reverse] at h
    rw [h, hcs]
    rfl
  have hshape : (c :: s) ++ [c] = (c :: a :: t).reverse := by
    rw [List.reverse_cons, hcs]
  have hswap : (edgeCross point.1 point.2 ∘ Prod.swap :
      ((α × α) × α × α) → Bool) = edgeCross point.1 point.2 := by
    funext e
    rcases e with ⟨p, q⟩
    exact edgeCross_swap point.1 point.2 p q
  rw [hcs, pipFresh_eq_countP, hshape, consPairs_reverse, List.countP_map, hswap,
    (List.reverse_perm _).countP_eq, pipFresh_eq_countP point a t,
    consPairs_append_one, hlast, consPairs_cons_cons]
  rw [List.countP_cons, List.countP_append, List.countP_cons, List.countP_nil]
  congr 1
  omega

/-- Appending a copy of the first vertex at the end of a ring (explicitly
closing it) does not change the crossing parity. -/
theorem pipFresh_close {α : Type} [LinearOrderedField α] (point : α × α)
    (a : α × α) (t : List (α × α)) :
    pipFresh point ((a :: t) ++ [a]) = pipFresh point (a :: t) := by
  have h0 : (a :: t) ++ [a] = a :: (t ++ [a]) := by simp
  rw [h0, pipFresh_eq_countP point a (t ++ [a]), pipFresh_eq_countP point a t]
  have h1 : (a :: (t ++ [a])) ++ [a] = ((a :: t) ++ [a]) ++ [a] := by simp
  rw [h1, consPairs_append_one ((a :: t) ++ [a]) a, List.getLast?_concat]
  rw [List.countP_append, List.countP_cons, List.countP_nil]
  simp [edgeCross_self]

/-! ## `get_polygon_coords` (tile_math.py, lines 73–119) -/

/-- GeoJSON-style geometry, as dispatched on by `get_polygon_coords`:
`Polygon` (list of rings), `MultiPolygon` (list of polygons), `LineString`
(used by the bbox module as a two-corner bbox), or anything else. -/
inductive Geometry (α : Type) where
  | polygon (coordinates : List (List (α × α)))
  | multiPolygon (coordinates : List (List (List (α × α))))
  | lineString (coordinates : List (α × α))
  | other

/-- `get_polygon_coords(geometry)` from `tile_math.py`: first ring of a
`Polygon`, first ring of the first polygon of a `MultiPolygon`, a closed
5-vertex rectangle from the two corners of a `LineString`, and `[]` for
anything else (including structurally empty coordinate arrays). -/
def get_polygon_coords {α : Type} : Geometry α → List (α × α)
  | .polygon coords =>
    match coords with
    | [] => []
    | ring :: _ => ring
  | .multiPolygon coords =>
    match coords with
    | [] => []
    | poly :: _ =>
      match poly with
      | [] => []
      | ring :: _ => ring
  | .lineString coords =>
    match coords with
    | (left, bottom) :: (right, top) :: _ =>
      [(left, bottom), (right, bottom), (right, top), (left, top), (left, bottom)]
    | _ => []
  | .other => []

/-! ## Coordinate transforms (tile_math.py, lines 5–35 and 122–165)

Python floats are modelled by `ℝ`; `int(x)` truncation toward zero by
`pytrunc`; `math.radians`/`math.degrees` by multiplication with `π/180` and
`180/π`. -/

/-- Python's `int(x)` applied to a float: truncation toward zero. -/
noncomputable def pytrunc (x : ℝ) : ℤ := if x < 0 then -⌊-x⌋ else ⌊x⌋

/-- `lon_to_tile_x(lon, zoom)` from `tile_math.py`:
`x = int((lon + 180.0) / 360.0 * n)` clamped to `[0, n − 1]`. -/
noncomputable def lon_to_tile_x (lon : ℝ) (zoom : ℕ) : ℤ :=
  let n : ℤ := 2 ^ zoom
  let x := pytrunc ((lon + 180) / 360 * (2 ^ zoom : ℝ))
  max 0 (min (n - 1) x)

/-- `lat_to_tile_y(lat, zoom)` from `tile_math.py`: clamp the latitude to
the Web-Mercator bound `±85.05112878`, compute the top-origin
`y_xyz = (1 − ln(tan(lat_rad) + 1/cos(lat_rad))/π)/2 · n`, truncate, and
flip to the bottom-origin (TMS) row `(n − 1) − int(y_xyz)`. -/
noncomputable def lat_to_tile_y (lat : ℝ) (zoom : ℕ) : ℤ :=
  let lat' := max (-85.05112878) (min 85.05112878 lat)
  let lat_rad := lat' * Real.pi / 180
  let n : ℝ := 2 ^ zoom
  let y_xyz := (1 - Real.log (Real.tan lat_rad + 1 / Real.cos lat_rad) / Real.pi) / 2 * n
  (2 ^ zoom - 1 : ℤ) - pytrunc y_xyz

/-- `tile_center_lonlat(z, x, y)` from `tile_math.py`: the center of a tile
in lon/lat degrees, with the row given bottom-origin (TMS). -/
noncomputable def tile_center_lonlat (z : ℕ) (x y : ℤ) : ℝ × ℝ :=
  let n : ℝ := 2 ^ z
  let x_center := ((x : ℝ) + 0.5) / n
  let y_center_xyz := ((n - 1) - (y : ℝ) + 0.5) / n
  let lon := x_center * 360 - 180
  let lat_rad := Real.arctan (Real.sinh (Real.pi * (1 - 2 * y_center_xyz)))
  let lat := lat_rad * 180 / Real.pi
  (lon, lat)

/-- Python's `range(a, b + 1)` over integers, as a list. -/
def intRange (a b : ℤ) : List ℤ := (List.range (b + 1 - a).toNat).map (fun i : ℕ => a + (i : ℤ))

/-- `get_tiles_in_bbox(bbox, zoom)` from `tile_math.py`: the inclusive
rectangular span of tile coordinates between the converted corners. -/
noncomputable def get_tiles_in_bbox (bbox : ℝ × ℝ × ℝ × ℝ) (zoom : ℕ) : List (ℤ × ℤ) :=
  let x_min := lon_to_tile_x bbox.1 zoom
  let x_max := lon_to_tile_x bbox.2.2.1 zoom
  let y_top := lat_to_tile_y bbox.2.2.2 zoom
  let y_bottom := lat_to_tile_y bbox.2.1 zoom
  let y_min := min y_top y_bottom
  let y_max := max y_top y_bottom
  (intRange x_min x_max).flatMap (fun x => (intRange y_min y_max).map (fun y => (x, y)))

/-! ## The `MBTilesCutter` engine (mbtiles_cutter.py)

The `tiles` table is modelled as the list of its key triples
`(zoom_level, tile_column, tile_row)`; the opaque `tile_data` payload is
never read or written by the cutter, so it is omitted from the model.  Each
executed `DELETE` statement and the final `commit` are recorded in an event
trace. -/

/-- A row key of the `tiles` table (and equally a coordinate submitted for
deletion): `(zoom_level, tile_column, tile_row)`. -/
abbrev TileKey := ℤ × ℤ × ℤ

/-- Observable storage events: an executed `DELETE ... WHERE` statement for
one coordinate, or a `conn.commit()`. -/
inductive Event where
  | del (key : TileKey)
  | commit
deriving DecidableEq

/-- A boundary as consumed by the engine (spec §6): a geometry and its
derived bounding box `[left, bottom, right, top]`.
Modelled from the spec: the `Feature` class itself lives in the external
`bbox` module (`planetutils/bbox.py`, not part of the sources under study);
per spec §3/§6 it exposes exactly a geometry and a derived axis-aligned
bounding box, so it is modelled as a structure holding both. -/
structure Feature where
  geometry : Geometry ℝ
  bbox : ℝ × ℝ × ℝ × ℝ

/-- Python's `tiles[i:i + batch_size] for i in range(0, len(tiles), batch_size)`
for a positive step: successive chunks of at most `b` elements.  (A zero
`batch_size` would raise `ValueError` in Python; the engine properties are
only stated for positive batch sizes.) -/
def toBatches {β : Type} : ℕ → List β → List (List β)
  | _, [] => []
  | 0, l => [l]
  | b + 1, x :: xs =>
    (x :: xs).take (b + 1) :: toBatches (b + 1) ((x :: xs).drop (b + 1))
termination_by _ l => l.length
decreasing_by
  simp only [List.length_drop, List.length_cons]
  omega

/-- The filtering loop `for ...: if point_in_polygon(...): append` with a
possibly-raising test: the first `none` aborts the whole loop, otherwise
the elements whose test is `true` are kept in order. -/
def filterOptM {β : Type} (f : β → Option Bool) : List β → Option (List β)
  | [] => some []
  | x :: xs =>
    match f x with
    | none => none
    | some b =>
      match filterOptM f xs with
      | none => none
      | some ys => some (if b then x :: ys else ys)

/-- `MBTilesCutter._delete_tiles(tiles)`: empty batches return 0 before
anything happens; in dry-run mode the batch length is reported and nothing
is executed; otherwise one `DELETE` statement is executed per coordinate,
and each statement whose `rowcount` is positive contributes 1 to the
returned count. -/
def delete_tiles (dry : Bool) (store : List TileKey) (tiles : List TileKey) :
    List TileKey × ℕ × List Event :=
  if tiles = [] then (store, 0, [])
  else if dry then (store, tiles.length, [])
  else
    tiles.foldl
      (fun acc c =>
        let rowcount := acc.1.countP (fun r => decide (r = c))
        (acc.1.filter (fun r => decide (¬ r = c)),
         acc.2.1 + (if 0 < rowcount then 1 else 0),
         acc.2.2 ++ [Event.del c]))
      (store, 0, [])

/-- The per-zoom body of `MBTilesCutter._process_single_feature`: enumerate
candidates in the bbox, keep those whose center lies in the polygon, then
delete them in batches. -/
noncomputable def process_zoom (polygon : List (ℝ × ℝ)) (bbox : ℝ × ℝ × ℝ × ℝ) (dry : Bool)
    (batch : ℕ) (zoom : ℕ) (st : List TileKey × ℕ × List Event) :
    Option (List TileKey × ℕ × List Event) :=
  let tiles_to_check := get_tiles_in_bbox bbox zoom
  (filterOptM
      (fun t : ℤ × ℤ => point_in_polygon (tile_center_lonlat zoom t.1 t.2) polygon)
      tiles_to_check).bind (fun kept =>
    let tiles_to_delete : List TileKey := kept.map (fun t => ((zoom : ℤ), t.1, t.2))
    if tiles_to_delete = [] then some st
    else some ((toBatches batch tiles_to_delete).foldl
        (fun acc b =>
          let r := delete_tiles dry acc.1 b
          (r.1, acc.2.1 + r.2.1, acc.2.2 ++ r.2.2))
        st))

/-- `MBTilesCutter._process_single_feature(feature, min_zoom, max_zoom)`:
extract the ring (zero affected if empty), then process each zoom level in
the inclusive range. -/
noncomputable def process_single_feature (f : Feature) (min_zoom max_zoom : ℕ) (dry : Bool)
    (batch : ℕ) (store : List TileKey) : Option (List TileKey × ℕ × List Event) :=
  let polygon := get_polygon_coords f.geometry
  if polygon = [] then some (store, 0, [])
  else
    (List.range' min_zoom (max_zoom + 1 - min_zoom)).foldl
      (fun acc zoom => acc.bind (process_zoom polygon f.bbox dry batch zoom))
      (some (store, 0, []))

/-- The per-boundary loop of `MBTilesCutter.process_features`, before the
final commit decision: processes every supplied feature in order,
accumulating the total affected count and the event trace. -/
noncomputable def process_all_features (features : List (String × Feature)) (min_zoom max_zoom : ℕ)
    (dry : Bool) (batch : ℕ) (store : List TileKey) :
    Option (List TileKey × ℕ × List Event) :=
  features.foldl
    (fun acc nf => acc.bind (fun st =>
      (process_single_feature nf.2 min_zoom max_zoom dry batch st.1).map
        (fun r => (r.1, st.2.1 + r.2.1, st.2.2 ++ r.2.2))))
    (some (store, 0, []))

/-- `MBTilesCutter.process_features(features, min_zoom, max_zoom)` with its
event trace: after all boundaries are processed, `conn.commit()` is issued
iff the run is not a dry run and the total affected count is positive. -/
noncomputable def process_features_trace (features : List (String × Feature)) (min_zoom max_zoom : ℕ)
    (dry : Bool) (batch : ℕ) (store : List TileKey) :
    Option (List TileKey × ℕ × List Event) :=
  (process_all_features features min_zoom max_zoom dry batch store).map
    (fun st => (st.1, st.2.1,
      st.2.2 ++ (if dry = false ∧ 0 < st.2.1 then [Event.commit] else [])))

/-- `MBTilesCutter.process_features`: final store contents and returned
total. -/
noncomputable def process_features (features : List (String × Feature)) (min_zoom max_zoom : ℕ)
    (dry : Bool) (batch : ℕ) (store : List TileKey) : Option (List TileKey × ℕ) :=
  (process_features_trace features min_zoom max_zoom dry batch store).map
    (fun st => (st.1, st.2.1))

/-! ## The coordinates submitted for deletion

The coordinates an engine run submits to `_delete_tiles` depend only on the
boundaries and the zoom range — never on the store contents or the batch
size.  The following definitions compute their number. -/

/-- Number of candidate tiles at one zoom level whose center lies inside
the (nonempty) ring. -/
noncomputable def submitted_at_zoom (polygon : List (ℝ × ℝ)) (bbox : ℝ × ℝ × ℝ × ℝ)
    (zoom : ℕ) : ℕ :=
  ((get_tiles_in_bbox bbox zoom).filter
    (fun t => pipFresh (tile_center_lonlat zoom t.1 t.2) polygon)).length

/-- Number of coordinates submitted for one feature over the zoom range. -/
noncomputable def submitted_feature (f : Feature) (min_zoom max_zoom : ℕ) : ℕ :=
  let polygon := get_polygon_coords f.geometry
  if polygon = [] then 0
  else ((List.range' min_zoom (max_zoom + 1 - min_zoom)).map
    (submitted_at_zoom polygon f.bbox)).sum

/-- Number of coordinates submitted over a whole run. -/
noncomputable def submitted_total (features : List (String × Feature))
    (min_zoom max_zoom : ℕ) : ℕ :=
  (features.map (fun nf => submitted_feature nf.2 min_zoom max_zoom)).sum

/-! ## Scenario A (the engine test `test_cut_operation_*`): a full 4×4 grid
at zoom 2 cut with the western-hemisphere rectangle. -/

/-- The boundary ring of scenario A. -/
noncomputable def scenARing : List (ℝ × ℝ) :=
  [(-180, -85), (0, -85), (0, 85), (-180, 85), (-180, -85)]

/-- The scenario A boundary as a `Feature`; its bbox is the rectangle's
axis-aligned hull `[-180, -85, 0, 85]`. -/
noncomputable def scenAFeature : Feature :=
  ⟨Geometry.polygon [scenARing], (-180, -85, 0, 85)⟩

/-- A store holding the full 4×4 grid at zoom 2, in insertion order. -/
def scenAStore16 : List TileKey :=
  [(2, 0, 0), (2, 0, 1), (2, 0, 2), (2, 0, 3),
   (2, 1, 0), (2, 1, 1), (2, 1, 2), (2, 1, 3),
   (2, 2, 0), (2, 2, 1), (2, 2, 2), (2, 2, 3),
   (2, 3, 0), (2, 3, 1), (2, 3, 2), (2, 3, 3)]

/-- The eastern half of the grid: what survives the scenario A cut. -/
def scenAStore8 : List TileKey :=
  [(2, 2, 0), (2, 2, 1), (2, 2, 2), (2, 2, 3),
   (2, 3, 0), (2, 3, 1), (2, 3, 2), (2, 3, 3)]

/-- The candidate tiles of the scenario A bbox at zoom 2. -/
def scenATiles12 : List (ℤ × ℤ) :=
  [(0, 0), (0, 1), (0, 2), (0, 3),
   (1, 0), (1, 1), (1, 2), (1, 3),
   (2, 0), (2, 1), (2, 2), (2, 3)]

/-- The candidates whose center lies inside the scenario A ring. -/
def scenAKept8 : List (ℤ × ℤ) :=
  [(0, 0), (0, 1), (0, 2), (0, 3), (1, 0), (1, 1), (1, 2), (1, 3)]

/-- The coordinates submitted for deletion in scenario A. -/
def scenADelete : List TileKey :=
  [(2, 0, 0), (2, 0, 1), (2, 0, 2), (2, 0, 3),
   (2, 1, 0), (2, 1, 1), (2, 1, 2), (2, 1, 3)]

/-! ## Behaviour of the delete layer -/

theorem delete_tiles_dry (store tiles : List TileKey) :
    delete_tiles true store tiles = (store, tiles.length, []) := by
  unfold delete_tiles
  by_cases h : tiles = []
  · subst h; simp
  · rw [if_neg h, if_pos rfl]

/-- A filtering loop whose test always succeeds filters by the underlying
boolean function. -/
theorem filterOptM_eq_some {β : Type} (g : β → Option Bool) (h : β → Bool)
    (hg : ∀ t, g t = some (h t)) :
    ∀ l : List β, filterOptM g l = some (l.filter h)
  | [] => rfl
  | x :: xs => by
    rw [filterOptM, hg x, filterOptM_eq_some g h hg xs]
    rcases hb : h x with _ | _ <;> simp [List.filter_cons, hb]

/-- Dry runs of the batch fold: the store and events are untouched and the
whole submitted length is added to the count. -/
theorem batches_foldl_dry :
    ∀ (b : ℕ) (l : List TileKey) (st : List TileKey × ℕ × List Event),
      (toBatches b l).foldl
        (fun acc bt =>
          let r := delete_tiles true acc.1 bt
          (r.1, acc.2.1 + r.2.1, acc.2.2 ++ r.2.2)) st =
        (st.1, st.2.1 + l.length, st.2.2)
  | b, [], st => by
    have h : toBatches b ([] : List TileKey) = [] := by
      cases b <;> simp [toBatches]
    simp [h]
  | 0, x :: xs, st => by
    have h : toBatches 0 (x :: xs) = [x :: xs] := by simp [toBatches]
    simp [h, delete_tiles_dry]
  | b + 1, x :: xs, st => by
    have h : toBatches (b + 1) (x :: xs) =
        (x :: xs).take (b + 1) :: toBatches (b + 1) ((x :: xs).drop (b + 1)) := by
      rw [toBatches]
    rw [h, List.foldl_cons]
    rw [batches_foldl_dry (b + 1) ((x :: xs).drop (b + 1)) _]
    simp only [delete_tiles_dry, List.append_nil]
    refine congrArg (fun k => (st.1, k, st.2.2)) ?_
    simp only [List.length_take, List.length_drop, List.length_cons]
    omega
termination_by b l => l.length
decreasing_by
  simp only [List.length_drop, List.length_cons]
  omega

/-- A dry `process_zoom` with a nonempty ring: the store and events pass
through, `submitted_at_zoom` is added to the count. -/
theorem process_zoom_dry (p0 : ℝ × ℝ) (rest : List (ℝ × ℝ)) (bbox : ℝ × ℝ × ℝ × ℝ)
    (batch zoom : ℕ) (st : List TileKey × ℕ × List Event) :
    process_zoom (p0 :: rest) bbox true batch zoom st =
      some (st.1, st.2.1 + submitted_at_zoom (p0 :: rest) bbox zoom, st.2.2) := by
  simp only [process_zoom]
  rw [filterOptM_eq_some _
    (fun t : ℤ × ℤ => pipFresh (tile_center_lonlat zoom t.1 t.2) (p0 :: rest))
    (fun t => point_in_polygon_eq_fresh (tile_center_lonlat zoom t.1 t.2) p0 rest),
    Option.some_bind]
  set kept := (get_tiles_in_bbox bbox zoom).filter
    (fun t => pipFresh (tile_center_lonlat zoom t.1 t.2) (p0 :: rest)) with hkept
  by_cases hk : (kept.map (fun t : ℤ × ℤ => (((zoom : ℤ), t.1, t.2) : TileKey))) = []
  · rw [if_pos hk]
    have hk0 : kept = [] := by
      rcases hkk : kept with _ | ⟨a, b⟩
      · rfl
      · rw [hkk] at hk; simp at hk
    rw [submitted_at_zoom, ← hkept, hk0]
    simp
  · rw [if_neg hk]
    rw [batches_foldl_dry]
    rw [submitted_at_zoom, ← hkept]
    simp

/-- A dry run of the zoom-level loop. -/
theorem zooms_foldl_dry (p0 : ℝ × ℝ) (rest : List (ℝ × ℝ)) (bbox : ℝ × ℝ × ℝ × ℝ)
    (batch : ℕ) :
    ∀ (zs : List ℕ) (st : List TileKey × ℕ × List Event),
      zs.foldl (fun acc zoom => acc.bind (process_zoom (p0 :: rest) bbox true batch zoom))
        (some st) =
      some (st.1, st.2.1 + (zs.map (submitted_at_zoom (p0 :: rest) bbox)).sum, st.2.2)
  | [], st => by simp
  | z :: zs, st => by
    rw [List.foldl_cons]
    have h1 : (some st).bind (process_zoom (p0 :: rest) bbox true batch z) =
        some (st.1, st.2.1 + submitted_at_zoom (p0 :: rest) bbox z, st.2.2) := by
      rw [Option.some_bind, process_zoom_dry]
    rw [h1, zooms_foldl_dry p0 rest bbox batch zs _]
    simp [Nat.add_assoc]

/-- A dry `process_single_feature` leaves the store alone, emits no events,
and reports `submitted_feature`. -/
theorem process_single_feature_dry (f : Feature) (min_zoom max_zoom batch : ℕ)
    (store : List TileKey) :
    process_single_feature f min_zoom max_zoom true batch store =
      some (store, submitted_feature f min_zoom max_zoom, []) := by
  simp only [process_single_feature, submitted_feature]
  rcases hpoly : get_polygon_coords f.geometry with _ | ⟨p0, rest⟩
  · simp
  · rw [if_neg (List.cons_ne_nil p0 rest), if_neg (List.cons_ne_nil p0 rest)]
    rw [zooms_foldl_dry p0 rest f.bbox batch _ (store, 0, [])]
    simp

/-- A dry run of the whole per-boundary loop. -/
theorem process_all_features_dry (min_zoom max_zoom batch : ℕ) :
    ∀ (features : List (String × Feature)) (st : List TileKey × ℕ × List Event),
      features.foldl
        (fun acc nf => acc.bind (fun st' =>
          (process_single_feature nf.2 min_zoom max_zoom true batch st'.1).map
            (fun r => (r.1, st'.2.1 + r.2.1, st'.2.2 ++ r.2.2))))
        (some st) =
      some (st.1, st.2.1 +
        (features.map (fun nf => submitted_feature nf.2 min_zoom max_zoom)).sum, st.2.2)
  | [], st => by simp
  | nf :: fs, st => by
    rw [List.foldl_cons, Option.some_bind, process_single_feature_dry]
    simp only [Option.map_some']
    rw [process_all_features_dry min_zoom max_zoom batch fs _]
    simp [Nat.add_assoc]

/-- Dry-run master theorem: the store is returned unchanged, no event at
all (in particular no DELETE and no commit) is issued, and the reported
total is exactly the number of submitted coordinates. -/
theorem process_features_trace_dry (features : List (String × Feature))
    (min_zoom max_zoom batch : ℕ) (store : List TileKey) :
    process_features_trace features min_zoom max_zoom true batch store =
      some (store, submitted_total features min_zoom max_zoom, []) := by
  unfold process_features_trace process_all_features submitted_total
  rw [process_all_features_dry min_zoom max_zoom batch features (store, 0, [])]
  simp

/-! ## Behaviour of real (non-dry) runs -/

theorem countP_not_add {β : Type} (p : β → Bool) :
    ∀ l : List β, l.countP (fun a => !(p a)) + l.countP p = l.length
  | [] => rfl
  | a :: t => by
    simp only [List.countP_cons, List.length_cons]
    have := countP_not_add p t
    cases hb : p a <;> simp [hb] <;> omega

/-- In a duplicate-free store each submitted coordinate matches at most one
row. -/
theorem countP_eq_le_one_of_nodup {β : Type} [DecidableEq β] :
    ∀ (l : List β), l.Nodup → ∀ c : β, l.countP (fun r => decide (r = c)) ≤ 1
  | [], _, _ => by simp
  | a :: t, h, c => by
    rw [List.nodup_cons] at h
    rw [List.countP_cons]
    by_cases hac : a = c
    · have h0 : t.countP (fun r => decide (r = c)) = 0 := by
        rw [List.countP_eq_zero]
        intro r hr
        simp only [decide_eq_true_eq]
        rintro rfl
        exact h.1 (hac ▸ hr)
      simp [h0, hac]
    · have := countP_eq_le_one_of_nodup t h.2 c
      simp [hac]
      omega

/-- Specification of the non-dry per-coordinate DELETE loop of
`_delete_tiles`. -/
theorem delete_foldl_spec :
    ∀ (tiles : List TileKey) (s : List TileKey) (d : ℕ) (evs : List Event)
      (s' : List TileKey) (d' : ℕ) (evs' : List Event),
      tiles.foldl
        (fun acc c =>
          let rowcount := acc.1.countP (fun r => decide (r = c))
          (acc.1.filter (fun r => decide (¬ r = c)),
           acc.2.1 + (if 0 < rowcount then 1 else 0),
           acc.2.2 ++ [Event.del c])) (s, d, evs) = (s', d', evs') →
      evs' = evs ++ tiles.map Event.del ∧ d ≤ d' ∧ d' ≤ d + tiles.length ∧
        (s.Nodup → s'.Nodup ∧ s'.length + d' = s.length + d)
  | [], s, d, evs, s', d', evs', h => by
    simp only [List.foldl_nil, Prod.mk.injEq] at h
    obtain ⟨h1, h2, h3⟩ := h
    subst h1; subst h2; subst h3
    simp
  | c :: rest, s, d, evs, s', d', evs', h => by
    rw [List.foldl_cons] at h
    have ih := delete_foldl_spec rest
      (s.filter (fun r => decide (¬ r = c)))
      (d + (if 0 < s.countP (fun r => decide (r = c)) then 1 else 0))
      (evs ++ [Event.del c]) s' d' evs' h
    obtain ⟨ih1, ih2, ih3, ih4⟩ := ih
    refine ⟨by simpa using ih1, by omega, by
      rcases Nat.lt_or_ge 0 (s.countP (fun r => decide (r = c))) with h0 | h0
      · simp only [if_pos h0] at ih3
        simp only [List.length_cons]
        omega
      · have h0' : ¬ 0 < s.countP (fun r => decide (r = c)) := by omega
        simp only [if_neg h0'] at ih3
        simp only [List.length_cons]
        omega, ?_⟩
    intro hnd
    have hcnt : s.countP (fun r => decide (r = c)) ≤ 1 :=
      countP_eq_le_one_of_nodup s hnd c
    have hnd' : (s.filter (fun r => decide (¬ r = c))).Nodup := hnd.filter _
    obtain ⟨ih5, ih6⟩ := ih4 hnd'
    refine ⟨ih5, ?_⟩
    have hlen : (s.filter (fun r => decide (¬ r = c))).length +
        s.countP (fun r => decide (r = c)) = s.length := by
      rw [← List.countP_eq_length_filter]
      have := countP_not_add (fun r => decide (r = c)) s
      simp only [decide_not] at *
      omega
    rcases Nat.lt_or_ge 0 (s.countP (fun r => decide (r = c))) with h0 | h0
    · have h1 : s.countP (fun r => decide (r = c)) = 1 := by omega
      rw [if_pos h0] at ih6
      omega
    · have h1 : s.countP (fun r => decide (r = c)) = 0 := by omega
      have h0' : ¬ 0 < s.countP (fun r => decide (r = c)) := by omega
      rw [if_neg h0'] at ih6
      omega

/-- Specification of a non-dry `_delete_tiles` call: one DELETE event per
coordinate, the count never exceeds the batch length, and on a
duplicate-free store the count is exactly the number of rows removed. -/
theorem delete_tiles_nondry (s tiles : List TileKey) (s' : List TileKey) (d : ℕ)
    (evs : List Event) (h : delete_tiles false s tiles = (s', d, evs)) :
    evs = tiles.map Event.del ∧ d ≤ tiles.length ∧
      (s.Nodup → s'.Nodup ∧ s'.length + d = s.length) := by
  unfold delete_tiles at h
  by_cases ht : tiles = []
  · rw [if_pos ht] at h
    simp only [Prod.mk.injEq] at h
    obtain ⟨h1, h2, h3⟩ := h
    subst h1; subst h2; subst h3; subst ht
    simp
  · rw [if_neg ht, if_neg (by simp : ¬ (false : Bool) = true)] at h
    have := delete_foldl_spec tiles s 0 [] s' d evs h
    obtain ⟨h1, _, h3, h4⟩ := this
    exact ⟨by simpa using h1, by omega, fun hnd => by
      obtain ⟨h5, h6⟩ := h4 hnd
      exact ⟨h5, by omega⟩⟩

/-- Specification of the non-dry batch fold: the events extend by DELETE
events only, the added count is bounded by the submitted length, and on a
duplicate-free store the count equals the number of rows removed. -/
theorem batches_foldl_nondry :
    ∀ (b : ℕ) (l : List TileKey) (st : List TileKey × ℕ × List Event)
      (s' : List TileKey) (d' : ℕ) (evs' : List Event),
      (toBatches b l).foldl
        (fun acc bt =>
          let r := delete_tiles false acc.1 bt
          (r.1, acc.2.1 + r.2.1, acc.2.2 ++ r.2.2)) st = (s', d', evs') →
      (∃ nevs, evs' = st.2.2 ++ nevs ∧ ∀ e ∈ nevs, e ≠ Event.commit) ∧
        st.2.1 ≤ d' ∧ d' ≤ st.2.1 + l.length ∧
        (st.1.Nodup → s'.Nodup ∧ s'.length + d' = st.1.length + st.2.1)
  | b, [], st, s', d', evs', h => by
    have hb : toBatches b ([] : List TileKey) = [] := by
      cases b <;> simp [toBatches]
    rw [hb] at h
    simp only [List.foldl_nil] at h
    subst h
    exact ⟨⟨[], by simp, by simp⟩, by simp, by simp,
      fun hnd => ⟨by simpa using hnd, by simp⟩⟩
  | 0, x :: xs, st, s', d', evs', h => by
    have hb : toBatches 0 (x :: xs) = [x :: xs] := by simp [toBatches]
    rw [hb] at h
    simp only [List.foldl_cons, List.foldl_nil] at h
    rcases hd : delete_tiles false st.1 (x :: xs) with ⟨s1, d1, evs1⟩
    rw [hd] at h
    simp only [Prod.mk.injEq] at h
    obtain ⟨h1, h2, h3⟩ := h
    obtain ⟨g1, g2, g3⟩ := delete_tiles_nondry st.1 (x :: xs) s1 d1 evs1 hd
    subst h1; subst h2; subst h3
    have g2' : d1 ≤ xs.length + 1 := by simpa using g2
    refine ⟨⟨evs1, rfl, ?_⟩, by omega,
      by simp only [List.length_cons]; omega, fun hnd => ?_⟩
    · intro e he
      rw [g1] at he
      simp only [List.mem_map] at he
      obtain ⟨k, _, hk⟩ := he
      rw [← hk]
      intro hcon
      exact Event.noConfusion hcon
    · obtain ⟨g4, g5⟩ := g3 hnd
      exact ⟨g4, by omega⟩
  | b + 1, x :: xs, st, s', d', evs', h => by
    have hb : toBatches (b + 1) (x :: xs) =
        (x :: xs).take (b + 1) :: toBatches (b + 1) ((x :: xs).drop (b + 1)) := by
      rw [toBatches]
    rw [hb, List.foldl_cons] at h
    rcases hd : delete_tiles false st.1 ((x :: xs).take (b + 1)) with ⟨s1, d1, evs1⟩
    rw [hd] at h
    obtain ⟨g1, g2, g3⟩ :=
      delete_tiles_nondry st.1 ((x :: xs).take (b + 1)) s1 d1 evs1 hd
    have ih := batches_foldl_nondry (b + 1) ((x :: xs).drop (b + 1))
      (s1, st.2.1 + d1, st.2.2 ++ evs1) s' d' evs' h
    obtain ⟨⟨nevs, ihe1, ihe2⟩, ih2, ih3, ih4⟩ := ih
    dsimp only at ihe1 ih2 ih3 ih4
    have hlen : ((x :: xs).take (b + 1)).length + ((x :: xs).drop (b + 1)).length =
        (x :: xs).length := by
      simp only [List.length_take, List.length_drop, List.length_cons]
      omega
    refine ⟨⟨evs1 ++ nevs, by rw [ihe1]; simp, ?_⟩, by omega, by omega, fun hnd => ?_⟩
    · intro e he
      rcases List.mem_append.mp he with he | he
      · rw [g1] at he
        simp only [List.mem_map] at he
        obtain ⟨k, _, hk⟩ := he
        rw [← hk]
        intro hcon
        exact Event.noConfusion hcon
      · exact ihe2 e he
    · obtain ⟨g4, g5⟩ := g3 hnd
      obtain ⟨ih5, ih6⟩ := ih4 g4
      exact ⟨ih5, by omega⟩
termination_by b l => l.length
decreasing_by
  simp only [List.length_drop, List.length_cons]
  omega

/-- A non-dry `process_zoom` with a nonempty ring always succeeds; its
contribution to the count is bounded by the submitted coordinates at that
zoom, its events are DELETEs only, and it conserves rows on a
duplicate-free store. -/
theorem process_zoom_nondry (p0 : ℝ × ℝ) (rest : List (ℝ × ℝ)) (bbox : ℝ × ℝ × ℝ × ℝ)
    (batch zoom : ℕ) (s : List TileKey) (a : ℕ) (e : List Event) :
    ∃ s' dd nevs,
      process_zoom (p0 :: rest) bbox false batch zoom (s, a, e) =
        some (s', a + dd, e ++ nevs) ∧
      dd ≤ submitted_at_zoom (p0 :: rest) bbox zoom ∧
      (∀ ev ∈ nevs, ev ≠ Event.commit) ∧
      (s.Nodup → s'.Nodup ∧ s'.length + dd = s.length) := by
  simp only [process_zoom]
  rw [filterOptM_eq_some _
    (fun t : ℤ × ℤ => pipFresh (tile_center_lonlat zoom t.1 t.2) (p0 :: rest))
    (fun t => point_in_polygon_eq_fresh (tile_center_lonlat zoom t.1 t.2) p0 rest),
    Option.some_bind]
  set kept := (get_tiles_in_bbox bbox zoom).filter
    (fun t => pipFresh (tile_center_lonlat zoom t.1 t.2) (p0 :: rest)) with hkept
  by_cases hk : (kept.map (fun t : ℤ × ℤ => (((zoom : ℤ), t.1, t.2) : TileKey))) = []
  · rw [if_pos hk]
    exact ⟨s, 0, [], by simp, by simp, by simp, fun hnd => ⟨hnd, by simp⟩⟩
  · rw [if_neg hk]
    rcases hr : (toBatches batch
        (kept.map (fun t : ℤ × ℤ => (((zoom : ℤ), t.1, t.2) : TileKey)))).foldl
        (fun acc bt =>
          let r := delete_tiles false acc.1 bt
          (r.1, acc.2.1 + r.2.1, acc.2.2 ++ r.2.2)) (s, a, e) with ⟨s', d', evs'⟩
    obtain ⟨⟨nevs, he1, he2⟩, h2, h3, h4⟩ :=
      batches_foldl_nondry batch _ (s, a, e) s' d' evs' hr
    dsimp only at he1 h2 h3 h4
    have hsub : (kept.map (fun t : ℤ × ℤ => (((zoom : ℤ), t.1, t.2) : TileKey))).length =
        submitted_at_zoom (p0 :: rest) bbox zoom := by
      rw [List.length_map, submitted_at_zoom, ← hkept]
    refine ⟨s', d' - a, nevs, ?_, by omega, he2, fun hnd => ?_⟩
    · have hd' : a + (d' - a) = d' := by omega
      rw [hd', he1]
    · obtain ⟨h5, h6⟩ := h4 hnd
      exact ⟨h5, by omega⟩

/-- A non-dry run of the zoom-level loop. -/
theorem zooms_foldl_nondry (p0 : ℝ × ℝ) (rest : List (ℝ × ℝ)) (bbox : ℝ × ℝ × ℝ × ℝ)
    (batch : ℕ) :
    ∀ (zs : List ℕ) (s : List TileKey) (a : ℕ) (e : List Event),
      ∃ s' dd nevs,
        zs.foldl (fun acc zoom => acc.bind (process_zoom (p0 :: rest) bbox false batch zoom))
          (some (s, a, e)) = some (s', a + dd, e ++ nevs) ∧
        dd ≤ (zs.map (submitted_at_zoom (p0 :: rest) bbox)).sum ∧
        (∀ ev ∈ nevs, ev ≠ Event.commit) ∧
        (s.Nodup → s'.Nodup ∧ s'.length + dd = s.length)
  | [], s, a, e => ⟨s, 0, [], by simp, by simp, by simp, fun hnd => ⟨hnd, by simp⟩⟩
  | z :: zs, s, a, e => by
    obtain ⟨s1, d1, nevs1, h1, h2, h3, h4⟩ :=
      process_zoom_nondry p0 rest bbox batch z s a e
    obtain ⟨s2, d2, nevs2, g1, g2, g3, g4⟩ :=
      zooms_foldl_nondry p0 rest bbox batch zs s1 (a + d1) (e ++ nevs1)
    refine ⟨s2, d1 + d2, nevs1 ++ nevs2, ?_, ?_, ?_, fun hnd => ?_⟩
    · rw [List.foldl_cons, Option.some_bind, h1, g1]
      have ha : a + d1 + d2 = a + (d1 + d2) := by omega
      rw [ha, List.append_assoc]
    · simp only [List.map_cons, List.sum_cons]
      omega
    · intro ev hev
      rcases List.mem_append.mp hev with hev | hev
      · exact h3 ev hev
      · exact g3 ev hev
    · obtain ⟨h5, h6⟩ := h4 hnd
      obtain ⟨g5, g6⟩ := g4 h5
      exact ⟨g5, by omega⟩

/-- A non-dry `process_single_feature` always succeeds; DELETE-only events,
count bounded by the feature's submitted coordinates, row conservation on a
duplicate-free store. -/
theorem process_single_feature_nondry (f : Feature) (min_zoom max_zoom batch : ℕ)
    (store : List TileKey) :
    ∃ s' dd nevs,
      process_single_feature f min_zoom max_zoom false batch store =
        some (s', dd, nevs) ∧
      dd ≤ submitted_feature f min_zoom max_zoom ∧
      (∀ ev ∈ nevs, ev ≠ Event.commit) ∧
      (store.Nodup → s'.Nodup ∧ s'.length + dd = store.length) := by
  simp only [process_single_feature, submitted_feature]
  rcases hpoly : get_polygon_coords f.geometry with _ | ⟨p0, rest⟩
  · exact ⟨store, 0, [], by simp, by simp, by simp, fun hnd => ⟨hnd, by simp⟩⟩
  · rw [if_neg (List.cons_ne_nil p0 rest), if_neg (List.cons_ne_nil p0 rest)]
    obtain ⟨s', dd, nevs, h1, h2, h3, h4⟩ := zooms_foldl_nondry p0 rest f.bbox batch
      (List.range' min_zoom (max_zoom + 1 - min_zoom)) store 0 []
    exact ⟨s', dd, nevs, by simpa using h1, h2, h3, h4⟩

/-- A non-dry run of the whole per-boundary loop. -/
theorem process_all_features_nondry (min_zoom max_zoom batch : ℕ) :
    ∀ (features : List (String × Feature)) (s : List TileKey) (a : ℕ) (e : List Event),
      ∃ s' dd nevs,
        features.foldl
          (fun acc nf => acc.bind (fun st' =>
            (process_single_feature nf.2 min_zoom max_zoom false batch st'.1).map
              (fun r => (r.1, st'.2.1 + r.2.1, st'.2.2 ++ r.2.2))))
          (some (s, a, e)) = some (s', a + dd, e ++ nevs) ∧
        dd ≤ (features.map (fun nf => submitted_feature nf.2 min_zoom max_zoom)).sum ∧
        (∀ ev ∈ nevs, ev ≠ Event.commit) ∧
        (s.Nodup → s'.Nodup ∧ s'.length + dd = s.length)
  | [], s, a, e => ⟨s, 0, [], by simp, by simp, by simp, fun hnd => ⟨hnd, by simp⟩⟩
  | nf :: fs, s, a, e => by
    obtain ⟨s1, d1, nevs1, h1, h2, h3, h4⟩ :=
      process_single_feature_nondry nf.2 min_zoom max_zoom batch s
    obtain ⟨s2, d2, nevs2, g1, g2, g3, g4⟩ :=
      process_all_features_nondry min_zoom max_zoom batch fs s1 (a + d1) (e ++ nevs1)
    refine ⟨s2, d1 + d2, nevs1 ++ nevs2, ?_, ?_, ?_, fun hnd => ?_⟩
    · rw [List.foldl_cons, Option.some_bind, h1]
      simp only [Option.map_some']
      rw [g1]
      have ha : a + d1 + d2 = a + (d1 + d2) := by omega
      rw [ha, List.append_assoc]
    · simp only [List.map_cons, List.sum_cons]
      omega
    · intro ev hev
      rcases List.mem_append.mp hev with hev | hev
      · exact h3 ev hev
      · exact g3 ev hev
    · obtain ⟨h5, h6⟩ := h4 hnd
      obtain ⟨g5, g6⟩ := g4 h5
      exact ⟨g5, by omega⟩

/-- Non-dry master theorem for `process_features_trace`: the run succeeds,
the body of the trace contains no commit, the final commit is appended
exactly when the total is positive, the total is bounded by the submitted
coordinates, and on a duplicate-free store the total equals the number of
rows removed. -/
theorem process_features_trace_nondry (features : List (String × Feature))
    (min_zoom max_zoom batch : ℕ) (store : List TileKey) :
    ∃ s' t body,
      process_all_features features min_zoom max_zoom false batch store =
        some (s', t, body) ∧
      process_features_trace features min_zoom max_zoom false batch store =
        some (s', t, body ++ (if 0 < t then [Event.commit] else [])) ∧
      (∀ ev ∈ body, ev ≠ Event.commit) ∧
      t ≤ submitted_total features min_zoom max_zoom ∧
      (store.Nodup → s'.Nodup ∧ s'.length + t = store.length) := by
  obtain ⟨s', dd, nevs, h1, h2, h3, h4⟩ :=
    process_all_features_nondry min_zoom max_zoom batch features store 0 []
  have h1' : process_all_features features min_zoom max_zoom false batch store =
      some (s', dd, nevs) := by
    unfold process_all_features
    simpa using h1
  refine ⟨s', dd, nevs, h1', ?_, h3, h2, h4⟩
  unfold process_features_trace
  rw [h1']
  simp

/-! ## Numeric toolkit: rational brackets for exp, sin, cos, sinh and π

These bounds support the coordinate-transform claims (C1–C3): Taylor
brackets with explicit remainders at rational points, transported to the
angles the Web-Mercator formulas use through monotonicity and Mathlib's
twenty-digit π approximation. -/

/-- Tenth-order Taylor bracket for the real cosine on `[-1, 1]`, derived from
the complex exponential's tail bound. -/
theorem cos_taylor (t : ℝ) (ht : |t| ≤ 1) :
    |Real.cos t - (1 - t^2/2 + t^4/24 - t^6/720 + t^8/40320)| ≤ |t|^10 * (11/36288000) := by
  have habsx : Complex.abs ((t : ℂ) * Complex.I) = |t| := by
    rw [map_mul, Complex.abs_I, Complex.abs_ofReal, mul_one]
  have habs : Complex.abs ((t : ℂ) * Complex.I) ≤ 1 := by rw [habsx]; exact ht
  have habs' : Complex.abs (-((t : ℂ) * Complex.I)) ≤ 1 := by
    rw [Complex.abs.map_neg]; exact habs
  have hplus := @Complex.exp_bound ((t : ℂ) * Complex.I) habs 10 (by norm_num)
  have hminus := @Complex.exp_bound (-((t : ℂ) * Complex.I)) habs' 10 (by norm_num)
  set Splus := ∑ m ∈ Finset.range 10, ((t : ℂ) * Complex.I) ^ m / m.factorial with hSplus
  set Sminus := ∑ m ∈ Finset.range 10, (-((t : ℂ) * Complex.I)) ^ m / m.factorial with hSminus
  have h4 : (Complex.I : ℂ) ^ 4 = 1 := Complex.I_pow_four
  have h6 : (Complex.I : ℂ) ^ 6 = -1 := by
    rw [show (6 : ℕ) = 2 * 3 from rfl, pow_mul, Complex.I_sq]; norm_num
  have h8 : (Complex.I : ℂ) ^ 8 = 1 := by
    rw [show (8 : ℕ) = 4 * 2 from rfl, pow_mul, h4]; norm_num
  have hsum : Splus + Sminus = 2 * (((1 - t^2/2 + t^4/24 - t^6/720 + t^8/40320 : ℝ) : ℂ)) := by
    rw [hSplus, hSminus]
    simp only [Finset.sum_range_succ, Finset.sum_range_zero, Nat.factorial]
    push_cast
    ring_nf
    simp only [h4, h6, h8, Complex.I_sq]
    ring_nf
  have hcos : Complex.cos (t : ℂ) =
      (Complex.exp ((t:ℂ) * Complex.I) + Complex.exp (-((t:ℂ) * Complex.I))) / 2 := by
    rw [Complex.cos, neg_mul]
  have hre : ((Real.cos t - (1 - t^2/2 + t^4/24 - t^6/720 + t^8/40320) : ℝ) : ℂ) =
      (Complex.exp ((t:ℂ) * Complex.I) - Splus) / 2 +
        (Complex.exp (-((t:ℂ) * Complex.I)) - Sminus) / 2 := by
    push_cast
    rw [hcos]
    have h2 : ((1 : ℂ) - (t:ℂ)^2/2 + (t:ℂ)^4/24 - (t:ℂ)^6/720 + (t:ℂ)^8/40320) =
        (Splus + Sminus) / 2 := by
      rw [hsum]; push_cast; ring
    rw [h2]
    ring
  have habs2 : |Real.cos t - (1 - t^2/2 + t^4/24 - t^6/720 + t^8/40320)| =
      Complex.abs (((Real.cos t - (1 - t^2/2 + t^4/24 - t^6/720 + t^8/40320) : ℝ) : ℂ)) := by
    rw [Complex.abs_ofReal]
  rw [habs2, hre]
  calc Complex.abs ((Complex.exp ((t:ℂ) * Complex.I) - Splus) / 2 +
        (Complex.exp (-((t:ℂ) * Complex.I)) - Sminus) / 2)
      ≤ Complex.abs ((Complex.exp ((t:ℂ) * Complex.I) - Splus) / 2) +
        Complex.abs ((Complex.exp (-((t:ℂ) * Complex.I)) - Sminus) / 2) :=
        Complex.abs.add_le _ _
    _ = Complex.abs (Complex.exp ((t:ℂ) * Complex.I) - Splus) / 2 +
        Complex.abs (Complex.exp (-((t:ℂ) * Complex.I)) - Sminus) / 2 := by
        rw [map_div₀, map_div₀, Complex.abs_two]
    _ ≤ (Complex.abs ((t : ℂ) * Complex.I) ^ 10 *
          (↑(Nat.succ 10) * ((Nat.factorial 10 : ℝ) * 10)⁻¹)) / 2 +
        (Complex.abs (-((t : ℂ) * Complex.I)) ^ 10 *
          (↑(Nat.succ 10) * ((Nat.factorial 10 : ℝ) * 10)⁻¹)) / 2 := by
        exact add_le_add ((div_le_div_iff_of_pos_right (by norm_num)).mpr hplus)
          ((div_le_div_iff_of_pos_right (by norm_num)).mpr hminus)
    _ = |t|^10 * (11/36288000) := by
        rw [Complex.abs.map_neg, habsx]
        norm_num [Nat.factorial]

/-- Ninth-order Taylor bracket for the real sine on `[-1, 1]`. -/
theorem sin_taylor (t : ℝ) (ht : |t| ≤ 1) :
    |Real.sin t - (t - t^3/6 + t^5/120 - t^7/5040)| ≤ |t|^9 * (10/3265920) := by
  have habsx : Complex.abs ((t : ℂ) * Complex.I) = |t| := by
    rw [map_mul, Complex.abs_I, Complex.abs_ofReal, mul_one]
  have habs : Complex.abs ((t : ℂ) * Complex.I) ≤ 1 := by rw [habsx]; exact ht
  have habs' : Complex.abs (-((t : ℂ) * Complex.I)) ≤ 1 := by
    rw [Complex.abs.map_neg]; exact habs
  have hplus := @Complex.exp_bound ((t : ℂ) * Complex.I) habs 9 (by norm_num)
  have hminus := @Complex.exp_bound (-((t : ℂ) * Complex.I)) habs' 9 (by norm_num)
  set Splus := ∑ m ∈ Finset.range 9, ((t : ℂ) * Complex.I) ^ m / m.factorial with hSplus
  set Sminus := ∑ m ∈ Finset.range 9, (-((t : ℂ) * Complex.I)) ^ m / m.factorial with hSminus
  have h4 : (Complex.I : ℂ) ^ 4 = 1 := Complex.I_pow_four
  have h6 : (Complex.I : ℂ) ^ 6 = -1 := by
    rw [show (6 : ℕ) = 2 * 3 from rfl, pow_mul, Complex.I_sq]; norm_num
  have h8 : (Complex.I : ℂ) ^ 8 = 1 := by
    rw [show (8 : ℕ) = 4 * 2 from rfl, pow_mul, h4]; norm_num
  have hsum : (Sminus - Splus) * Complex.I / 2 = ((t - t^3/6 + t^5/120 - t^7/5040 : ℝ) : ℂ) := by
    rw [hSplus, hSminus]
    simp only [Finset.sum_range_succ, Finset.sum_range_zero, Nat.factorial]
    push_cast
    ring_nf
    simp only [h4, h6, h8, Complex.I_sq]
    ring_nf
  have hsin : Complex.sin (t : ℂ) =
      (Complex.exp (-((t:ℂ) * Complex.I)) - Complex.exp ((t:ℂ) * Complex.I)) * Complex.I / 2 := by
    rw [Complex.sin, neg_mul]
  have hre : ((Real.sin t - (t - t^3/6 + t^5/120 - t^7/5040) : ℝ) : ℂ) =
      ((Complex.exp (-((t:ℂ) * Complex.I)) - Sminus) -
        (Complex.exp ((t:ℂ) * Complex.I) - Splus)) * Complex.I / 2 := by
    push_cast
    rw [hsin]
    have h2 : ((t:ℂ) - (t:ℂ)^3/6 + (t:ℂ)^5/120 - (t:ℂ)^7/5040) = (Sminus - Splus) * Complex.I / 2 := by
      rw [hsum]; push_cast; ring
    rw [h2]
    ring
  have habs2 : |Real.sin t - (t - t^3/6 + t^5/120 - t^7/5040)| =
      Complex.abs (((Real.sin t - (t - t^3/6 + t^5/120 - t^7/5040) : ℝ) : ℂ)) := by
    rw [Complex.abs_ofReal]
  rw [habs2, hre]
  have hstep : Complex.abs (((Complex.exp (-((t:ℂ) * Complex.I)) - Sminus) -
      (Complex.exp ((t:ℂ) * Complex.I) - Splus)) * Complex.I / 2) =
      Complex.abs ((Complex.exp (-((t:ℂ) * Complex.I)) - Sminus) -
        (Complex.exp ((t:ℂ) * Complex.I) - Splus)) / 2 := by
    rw [map_div₀, map_mul, Complex.abs_I, mul_one, Complex.abs_two]
  rw [hstep]
  have htri : Complex.abs ((Complex.exp (-((t:ℂ) * Complex.I)) - Sminus) -
      (Complex.exp ((t:ℂ) * Complex.I) - Splus)) ≤
      Complex.abs (Complex.exp (-((t:ℂ) * Complex.I)) - Sminus) +
        Complex.abs (Complex.exp ((t:ℂ) * Complex.I) - Splus) := by
    have hx : (Complex.exp (-((t:ℂ) * Complex.I)) - Sminus) -
        (Complex.exp ((t:ℂ) * Complex.I) - Splus) =
        (Complex.exp (-((t:ℂ) * Complex.I)) - Sminus) +
          (-(Complex.exp ((t:ℂ) * Complex.I) - Splus)) := by
      ring
    rw [hx]
    calc Complex.abs ((Complex.exp (-((t:ℂ) * Complex.I)) - Sminus) +
          (-(Complex.exp ((t:ℂ) * Complex.I) - Splus)))
        ≤ Complex.abs (Complex.exp (-((t:ℂ) * Complex.I)) - Sminus) +
          Complex.abs (-(Complex.exp ((t:ℂ) * Complex.I) - Splus)) := Complex.abs.add_le _ _
      _ = _ := by rw [Complex.abs.map_neg]
  have hplus' : Complex.abs (Complex.exp ((t:ℂ) * Complex.I) - Splus) ≤ |t|^9 * (10/3265920) := by
    refine le_trans hplus (le_of_eq ?_)
    rw [habsx]
    norm_num [Nat.factorial]
  have hminus' : Complex.abs (Complex.exp (-((t:ℂ) * Complex.I)) - Sminus) ≤
      |t|^9 * (10/3265920) := by
    refine le_trans hminus (le_of_eq ?_)
    rw [Complex.abs.map_neg, habsx]
    norm_num [Nat.factorial]
  have hb : Complex.abs (Complex.exp (-((t:ℂ) * Complex.I)) - Sminus) +
      Complex.abs (Complex.exp ((t:ℂ) * Complex.I) - Splus) ≤
      |t|^9 * (10/3265920) * 2 := by
    calc Complex.abs (Complex.exp (-((t:ℂ) * Complex.I)) - Sminus) +
        Complex.abs (Complex.exp ((t:ℂ) * Complex.I) - Splus)
        ≤ |t|^9 * (10/3265920) + |t|^9 * (10/3265920) := add_le_add hminus' hplus'
      _ = |t|^9 * (10/3265920) * 2 := by ring
  calc Complex.abs ((Complex.exp (-((t:ℂ) * Complex.I)) - Sminus) -
        (Complex.exp ((t:ℂ) * Complex.I) - Splus)) / 2
      ≤ (|t|^9 * (10/3265920) * 2) / 2 := by
        refine (div_le_div_iff_of_pos_right (by norm_num)).mpr ?_
        exact le_trans htri hb
    _ = |t|^9 * (10/3265920) := by ring

/-- Twelve-term upper Taylor bound for `exp` on `[0, 1]`. -/
theorem exp_le_poly12 (x B : ℝ) (h0 : 0 ≤ x) (h1 : x ≤ 1)
    (hB : (∑ m ∈ Finset.range 12, x ^ m / m.factorial) + x ^ 12 * (13 / 5748019200) ≤ B) :
    Real.exp x ≤ B := by
  have h := @Real.exp_bound x (by rwa [abs_of_nonneg h0]) 12 (by norm_num)
  have h2 := (abs_sub_le_iff.mp h).1
  rw [abs_of_nonneg h0] at h2
  norm_num [Nat.factorial] at h2
  linarith

/-- Twelve-term lower Taylor bound for `exp` on `[0, ∞)`. -/
theorem exp_ge_poly12 (x B : ℝ) (h0 : 0 ≤ x)
    (hB : B ≤ (∑ m ∈ Finset.range 12, x ^ m / m.factorial)) :
    B ≤ Real.exp x :=
  le_trans hB (Real.sum_le_exp_of_nonneg h0 12)

/-- `e³` to twenty digits, from above. -/
theorem exp_three_ub : Real.exp 3 ≤ 20.085536923187667742 := by
  have he := Real.exp_one_near_20
  have h1 : Real.exp 1 ≤ 363916618873 / 133877442384 + 1 / 10 ^ 20 := by
    have := (abs_sub_le_iff.mp he).1
    linarith
  have h3 : Real.exp 3 = (Real.exp 1) ^ 3 := by
    rw [show (3 : ℝ) = ((3 : ℕ) : ℝ) * 1 by norm_num, Real.exp_nat_mul]
  rw [h3]
  calc (Real.exp 1) ^ 3 ≤ (363916618873 / 133877442384 + 1 / 10 ^ 20) ^ 3 := by
        exact pow_le_pow_left₀ (le_of_lt (Real.exp_pos 1)) h1 3
    _ ≤ 20.085536923187667742 := by norm_num

/-- `e³` to nineteen digits, from below. -/
theorem exp_three_lb : (20.08553692318766774 : ℝ) ≤ Real.exp 3 := by
  have he := Real.exp_one_near_20
  have h1 : 363916618873 / 133877442384 - 1 / 10 ^ 20 ≤ Real.exp 1 := by
    have := (abs_sub_le_iff.mp he).2
    linarith
  have h3 : Real.exp 3 = (Real.exp 1) ^ 3 := by
    rw [show (3 : ℝ) = ((3 : ℕ) : ℝ) * 1 by norm_num, Real.exp_nat_mul]
  rw [h3]
  calc (20.08553692318766774 : ℝ) ≤ (363916618873 / 133877442384 - 1 / 10 ^ 20) ^ 3 := by
        norm_num
    _ ≤ (Real.exp 1) ^ 3 := by
        refine pow_le_pow_left₀ (by norm_num) h1 3

/-- `exp 1` from above, from Mathlib's twenty-digit approximation. -/
theorem exp_one_ub : Real.exp 1 ≤ 363916618873 / 133877442384 + 1 / 10 ^ 20 := by
  have := (abs_sub_le_iff.mp Real.exp_one_near_20).1
  linarith

/-- `exp 9 ≥ 8000`, via `exp 9 = (exp 3)³`. -/
theorem exp_nine_lb : (8000 : ℝ) ≤ Real.exp 9 := by
  have h9 : Real.exp 9 = (Real.exp 3) ^ 3 := by
    rw [show (9 : ℝ) = ((3 : ℕ) : ℝ) * 3 by norm_num, Real.exp_nat_mul]
  rw [h9]
  calc (8000 : ℝ) = 20 ^ 3 := by norm_num
    _ ≤ (Real.exp 3) ^ 3 :=
        pow_le_pow_left₀ (by norm_num) (le_trans (by norm_num) exp_three_lb) 3

/-- `exp ū ≤ 23.1406753001` for `ū = (2²²−1)/2²² · 3.14159265358979323847`,
the largest argument `tile_center_lonlat` ever feeds to `sinh` for zooms up
to 22 (up to the upper π approximation). -/
theorem exp_ubar_ub :
    Real.exp (1317679149172963054949443641 / 419430400000000000000000000) ≤ 23.1406753001 := by
  have hsplit : (1317679149172963054949443641 / 419430400000000000000000000 : ℝ) =
      3 + 59387949172963054949443641 / 419430400000000000000000000 := by norm_num
  rw [hsplit, Real.exp_add]
  have hf : Real.exp (59387949172963054949443641 / 419430400000000000000000000 : ℝ) ≤
      (∑ m ∈ Finset.range 12,
        (59387949172963054949443641 / 419430400000000000000000000 : ℝ) ^ m / m.factorial) +
      (59387949172963054949443641 / 419430400000000000000000000 : ℝ) ^ 12 *
        (13 / 5748019200) :=
    exp_le_poly12 _ _ (by norm_num) (by norm_num) le_rfl
  calc Real.exp 3 * Real.exp (59387949172963054949443641 / 419430400000000000000000000 : ℝ)
      ≤ 20.085536923187667742 * ((∑ m ∈ Finset.range 12,
          (59387949172963054949443641 / 419430400000000000000000000 : ℝ) ^ m / m.factorial) +
        (59387949172963054949443641 / 419430400000000000000000000 : ℝ) ^ 12 *
          (13 / 5748019200)) :=
        mul_le_mul exp_three_ub hf (le_of_lt (Real.exp_pos _)) (by norm_num)
    _ ≤ 23.1406753001 := by
        norm_num [Finset.sum_range_succ, Nat.factorial]

/-- `e^π ≤ 23.14069263277928`, through the upper π approximation. -/
theorem exp_pu_ub :
    Real.exp (314159265358979323847 / 100000000000000000000) ≤ 23.14069263277928 := by
  have hsplit : (314159265358979323847 / 100000000000000000000 : ℝ) =
      3 + 14159265358979323847 / 100000000000000000000 := by norm_num
  rw [hsplit, Real.exp_add]
  have hf : Real.exp (14159265358979323847 / 100000000000000000000 : ℝ) ≤
      (∑ m ∈ Finset.range 12,
        (14159265358979323847 / 100000000000000000000 : ℝ) ^ m / m.factorial) +
      (14159265358979323847 / 100000000000000000000 : ℝ) ^ 12 * (13 / 5748019200) :=
    exp_le_poly12 _ _ (by norm_num) (by norm_num) le_rfl
  calc Real.exp 3 * Real.exp (14159265358979323847 / 100000000000000000000 : ℝ)
      ≤ 20.085536923187667742 * ((∑ m ∈ Finset.range 12,
          (14159265358979323847 / 100000000000000000000 : ℝ) ^ m / m.factorial) +
        (14159265358979323847 / 100000000000000000000 : ℝ) ^ 12 * (13 / 5748019200)) :=
        mul_le_mul exp_three_ub hf (le_of_lt (Real.exp_pos _)) (by norm_num)
    _ ≤ 23.14069263277928 := by
        norm_num [Finset.sum_range_succ, Nat.factorial]

/-- `e^π ≥ 23.1406926`, through the lower π approximation. -/
theorem exp_pl_lb :
    (23.1406926 : ℝ) ≤ Real.exp (314159265358979323846 / 100000000000000000000) := by
  have hsplit : (314159265358979323846 / 100000000000000000000 : ℝ) =
      3 + 14159265358979323846 / 100000000000000000000 := by norm_num
  rw [hsplit, Real.exp_add]
  have hf : (∑ m ∈ Finset.range 12,
      (14159265358979323846 / 100000000000000000000 : ℝ) ^ m / m.factorial) ≤
      Real.exp (14159265358979323846 / 100000000000000000000 : ℝ) :=
    Real.sum_le_exp_of_nonneg (by norm_num) 12
  calc (23.1406926 : ℝ)
      ≤ 20.08553692318766774 * (∑ m ∈ Finset.range 12,
          (14159265358979323846 / 100000000000000000000 : ℝ) ^ m / m.factorial) := by
        norm_num [Finset.sum_range_succ, Nat.factorial]
    _ ≤ Real.exp 3 * Real.exp (14159265358979323846 / 100000000000000000000 : ℝ) :=
        mul_le_mul exp_three_lb hf
          (by norm_num [Finset.sum_range_succ, Nat.factorial]) (le_of_lt (Real.exp_pos _))

/-- `e^{π/2} ≤ 4.810477381`, through the upper π approximation. -/
theorem exp_half_pu_ub :
    Real.exp (314159265358979323847 / 200000000000000000000) ≤ 4.810477381 := by
  have hsplit : (314159265358979323847 / 200000000000000000000 : ℝ) =
      1 + 114159265358979323847 / 200000000000000000000 := by norm_num
  rw [hsplit, Real.exp_add]
  have hf : Real.exp (114159265358979323847 / 200000000000000000000 : ℝ) ≤
      (∑ m ∈ Finset.range 12,
        (114159265358979323847 / 200000000000000000000 : ℝ) ^ m / m.factorial) +
      (114159265358979323847 / 200000000000000000000 : ℝ) ^ 12 * (13 / 5748019200) :=
    exp_le_poly12 _ _ (by norm_num) (by norm_num) le_rfl
  calc Real.exp 1 * Real.exp (114159265358979323847 / 200000000000000000000 : ℝ)
      ≤ (363916618873 / 133877442384 + 1 / 10 ^ 20) * ((∑ m ∈ Finset.range 12,
          (114159265358979323847 / 200000000000000000000 : ℝ) ^ m / m.factorial) +
        (114159265358979323847 / 200000000000000000000 : ℝ) ^ 12 * (13 / 5748019200)) :=
        mul_le_mul exp_one_ub hf (le_of_lt (Real.exp_pos _)) (by norm_num)
    _ ≤ 4.810477381 := by
        norm_num [Finset.sum_range_succ, Nat.factorial]

/-- `e^{3π/4} ≤ 10.5507240775`, through the upper π approximation. -/
theorem exp_34_pu_ub :
    Real.exp (942477796076937971541 / 400000000000000000000) ≤ 10.5507240775 := by
  have hsplit : (942477796076937971541 / 400000000000000000000 : ℝ) =
      1 + (1 + 142477796076937971541 / 400000000000000000000) := by norm_num
  rw [hsplit, Real.exp_add, Real.exp_add]
  have hf : Real.exp (142477796076937971541 / 400000000000000000000 : ℝ) ≤
      (∑ m ∈ Finset.range 12,
        (142477796076937971541 / 400000000000000000000 : ℝ) ^ m / m.factorial) +
      (142477796076937971541 / 400000000000000000000 : ℝ) ^ 12 * (13 / 5748019200) :=
    exp_le_poly12 _ _ (by norm_num) (by norm_num) le_rfl
  have h2 : Real.exp 1 * Real.exp (142477796076937971541 / 400000000000000000000 : ℝ) ≤
      (363916618873 / 133877442384 + 1 / 10 ^ 20) * ((∑ m ∈ Finset.range 12,
          (142477796076937971541 / 400000000000000000000 : ℝ) ^ m / m.factorial) +
        (142477796076937971541 / 400000000000000000000 : ℝ) ^ 12 * (13 / 5748019200)) :=
    mul_le_mul exp_one_ub hf (le_of_lt (Real.exp_pos _)) (by norm_num)
  calc Real.exp 1 * (Real.exp 1 * Real.exp (142477796076937971541 / 400000000000000000000 : ℝ))
      ≤ (363916618873 / 133877442384 + 1 / 10 ^ 20) *
          ((363916618873 / 133877442384 + 1 / 10 ^ 20) * ((∑ m ∈ Finset.range 12,
            (142477796076937971541 / 400000000000000000000 : ℝ) ^ m / m.factorial) +
          (142477796076937971541 / 400000000000000000000 : ℝ) ^ 12 * (13 / 5748019200))) :=
        mul_le_mul exp_one_ub h2
          (mul_nonneg (le_of_lt (Real.exp_pos _)) (le_of_lt (Real.exp_pos _))) (by norm_num)
    _ ≤ 10.5507240775 := by
        norm_num [Finset.sum_range_succ, Nat.factorial]

/-- `sinh ū ≤ 11.54873068` for the extreme `tile_center_lonlat` argument. -/
theorem sinh_ubar_ub :
    Real.sinh (1317679149172963054949443641 / 419430400000000000000000000) ≤ 11.54873068 := by
  rw [Real.sinh_eq, Real.exp_neg]
  have h1 := exp_ubar_ub
  have h2 : (1 / 23.1406753001 : ℝ) ≤
      (Real.exp (1317679149172963054949443641 / 419430400000000000000000000))⁻¹ := by
    rw [one_div]
    exact inv_le_inv_of_le (Real.exp_pos _) h1
  have h3 : (0 : ℝ) < 23.1406753001 := by norm_num
  calc (Real.exp (1317679149172963054949443641 / 419430400000000000000000000) -
        (Real.exp (1317679149172963054949443641 / 419430400000000000000000000))⁻¹) / 2
      ≤ (23.1406753001 - 1 / 23.1406753001) / 2 := by
        have := sub_le_sub h1 h2
        linarith
    _ ≤ 11.54873068 := by norm_num

/-- `sinh(3π/4) ≤ 5.22797195`, through the upper π approximation. -/
theorem sinh_34_pu_ub :
    Real.sinh (942477796076937971541 / 400000000000000000000) ≤ 5.22797195 := by
  rw [Real.sinh_eq, Real.exp_neg]
  have h1 := exp_34_pu_ub
  have h2 : (1 / 10.5507240775 : ℝ) ≤
      (Real.exp (942477796076937971541 / 400000000000000000000))⁻¹ := by
    rw [one_div]
    exact inv_le_inv_of_le (Real.exp_pos _) h1
  calc (Real.exp (942477796076937971541 / 400000000000000000000) -
        (Real.exp (942477796076937971541 / 400000000000000000000))⁻¹) / 2
      ≤ (10.5507240775 - 1 / 10.5507240775) / 2 := by
        have := sub_le_sub h1 h2
        linarith
    _ ≤ 5.22797195 := by norm_num

/-- Upper bound on `sin` at a nonnegative rational point via its Taylor
polynomial. -/
theorem sin_ub_of_taylor (t B : ℝ) (h0 : 0 ≤ t) (h1 : t ≤ 1)
    (hB : t - t^3/6 + t^5/120 - t^7/5040 + t^9 * (10/3265920) ≤ B) :
    Real.sin t ≤ B := by
  have h := sin_taylor t (by rw [abs_of_nonneg h0]; exact h1)
  rw [abs_of_nonneg h0] at h
  have h2 := (abs_sub_le_iff.mp h).1
  linarith

/-- Lower bound on `sin` at a nonnegative rational point via its Taylor
polynomial. -/
theorem sin_lb_of_taylor (t B : ℝ) (h0 : 0 ≤ t) (h1 : t ≤ 1)
    (hB : B ≤ t - t^3/6 + t^5/120 - t^7/5040 - t^9 * (10/3265920)) :
    B ≤ Real.sin t := by
  have h := sin_taylor t (by rw [abs_of_nonneg h0]; exact h1)
  rw [abs_of_nonneg h0] at h
  have h2 := (abs_sub_le_iff.mp h).2
  linarith

/-- Upper bound on `cos` at a nonnegative rational point via its Taylor
polynomial. -/
theorem cos_ub_of_taylor (t B : ℝ) (h0 : 0 ≤ t) (h1 : t ≤ 1)
    (hB : 1 - t^2/2 + t^4/24 - t^6/720 + t^8/40320 + t^10 * (11/36288000) ≤ B) :
    Real.cos t ≤ B := by
  have h := cos_taylor t (by rw [abs_of_nonneg h0]; exact h1)
  rw [abs_of_nonneg h0] at h
  have h2 := (abs_sub_le_iff.mp h).1
  linarith

/-- Lower bound on `cos` at a nonnegative rational point via its Taylor
polynomial. -/
theorem cos_lb_of_taylor (t B : ℝ) (h0 : 0 ≤ t) (h1 : t ≤ 1)
    (hB : B ≤ 1 - t^2/2 + t^4/24 - t^6/720 + t^8/40320 - t^10 * (11/36288000)) :
    B ≤ Real.cos t := by
  have h := cos_taylor t (by rw [abs_of_nonneg h0]; exact h1)
  rw [abs_of_nonneg h0] at h
  have h2 := (abs_sub_le_iff.mp h).2
  linarith

/-! Bounds on `sin` and `cos` at the angles the clamp analysis needs:
`γ = π·0.027493729` (the co-latitude of the Web-Mercator clamp
`85.05112878°`), `γ₂ = π·(11/400)` (the co-latitude of `85.05°`), and
`γ₃ = π/36` (the co-latitude of `85°`), each bracketed through the
twenty-digit rational π approximations. -/

theorem sin_gamma_ub : Real.sin (Real.pi * (27493729 / 1000000000)) ≤ 0.086266738331 := by
  have hg : Real.pi * (27493729 / 1000000000) ≤
      8637409704618865246452655463 / 100000000000000000000000000000 := by
    calc Real.pi * (27493729 / 1000000000)
        ≤ 3.14159265358979323847 * (27493729 / 1000000000) :=
          mul_le_mul_of_nonneg_right (le_of_lt Real.pi_lt_d20) (by norm_num)
      _ = 8637409704618865246452655463 / 100000000000000000000000000000 := by norm_num
  have h0 : (0 : ℝ) ≤ Real.pi * (27493729 / 1000000000) :=
    mul_nonneg (le_of_lt Real.pi_pos) (by norm_num)
  calc Real.sin (Real.pi * (27493729 / 1000000000))
      ≤ Real.sin (8637409704618865246452655463 / 100000000000000000000000000000) :=
        Real.sin_le_sin_of_le_of_le_pi_div_two (by linarith [Real.pi_pos])
          (by linarith [Real.pi_gt_three]) hg
    _ ≤ 0.086266738331 :=
        sin_ub_of_taylor _ _ (by norm_num) (by norm_num) (by norm_num)

theorem sin_gamma_lb : (0.08626673 : ℝ) ≤ Real.sin (Real.pi * (27493729 / 1000000000)) := by
  have hg : (8637409704618865246425161734 / 100000000000000000000000000000 : ℝ) ≤
      Real.pi * (27493729 / 1000000000) := by
    calc (8637409704618865246425161734 / 100000000000000000000000000000 : ℝ)
        = 3.14159265358979323846 * (27493729 / 1000000000) := by norm_num
      _ ≤ Real.pi * (27493729 / 1000000000) :=
          mul_le_mul_of_nonneg_right (le_of_lt Real.pi_gt_d20) (by norm_num)
  have hub : Real.pi * (27493729 / 1000000000) ≤ 1 := by
    calc Real.pi * (27493729 / 1000000000)
        ≤ 3.14159265358979323847 * (27493729 / 1000000000) :=
          mul_le_mul_of_nonneg_right (le_of_lt Real.pi_lt_d20) (by norm_num)
      _ ≤ 1 := by norm_num
  calc (0.08626673 : ℝ)
      ≤ Real.sin (8637409704618865246425161734 / 100000000000000000000000000000) :=
        sin_lb_of_taylor _ _ (by norm_num) (by norm_num) (by norm_num)
    _ ≤ Real.sin (Real.pi * (27493729 / 1000000000)) :=
        Real.sin_le_sin_of_le_of_le_pi_div_two (by linarith [Real.pi_pos])
          (by linarith [Real.pi_gt_three]) hg

theorem cos_gamma_lb :
    (0.996272076221041 : ℝ) ≤ Real.cos (Real.pi * (27493729 / 1000000000)) := by
  have hg : Real.pi * (27493729 / 1000000000) ≤
      8637409704618865246452655463 / 100000000000000000000000000000 := by
    calc Real.pi * (27493729 / 1000000000)
        ≤ 3.14159265358979323847 * (27493729 / 1000000000) :=
          mul_le_mul_of_nonneg_right (le_of_lt Real.pi_lt_d20) (by norm_num)
      _ = 8637409704618865246452655463 / 100000000000000000000000000000 := by norm_num
  have h0 : (0 : ℝ) ≤ Real.pi * (27493729 / 1000000000) :=
    mul_nonneg (le_of_lt Real.pi_pos) (by norm_num)
  calc (0.996272076221041 : ℝ)
      ≤ Real.cos (8637409704618865246452655463 / 100000000000000000000000000000) :=
        cos_lb_of_taylor _ _ (by norm_num) (by norm_num) (by norm_num)
    _ ≤ Real.cos (Real.pi * (27493729 / 1000000000)) :=
        Real.cos_le_cos_of_nonneg_of_le_pi h0 (by linarith [Real.pi_gt_three]) hg

theorem cos_gamma2_ub : Real.cos (Real.pi * (11 / 400)) ≤ 0.99627038 := by
  have hg : (1727875959474386281153 / 20000000000000000000000 : ℝ) ≤
      Real.pi * (11 / 400) := by
    calc (1727875959474386281153 / 20000000000000000000000 : ℝ)
        = 3.14159265358979323846 * (11 / 400) := by norm_num
      _ ≤ Real.pi * (11 / 400) :=
          mul_le_mul_of_nonneg_right (le_of_lt Real.pi_gt_d20) (by norm_num)
  have hpi : Real.pi * (11 / 400) ≤ Real.pi := by nlinarith [Real.pi_pos]
  calc Real.cos (Real.pi * (11 / 400))
      ≤ Real.cos (1727875959474386281153 / 20000000000000000000000) :=
        Real.cos_le_cos_of_nonneg_of_le_pi (by norm_num)
          (by linarith [Real.pi_gt_three]) hg
    _ ≤ 0.99627038 := cos_ub_of_taylor _ _ (by norm_num) (by norm_num) (by norm_num)

theorem sin_gamma2_lb : (0.0862863 : ℝ) ≤ Real.sin (Real.pi * (11 / 400)) := by
  have hg : (1727875959474386281153 / 20000000000000000000000 : ℝ) ≤
      Real.pi * (11 / 400) := by
    calc (1727875959474386281153 / 20000000000000000000000 : ℝ)
        = 3.14159265358979323846 * (11 / 400) := by norm_num
      _ ≤ Real.pi * (11 / 400) :=
          mul_le_mul_of_nonneg_right (le_of_lt Real.pi_gt_d20) (by norm_num)
  have hub : Real.pi * (11 / 400) ≤ Real.pi / 2 := by nlinarith [Real.pi_pos]
  calc (0.0862863 : ℝ)
      ≤ Real.sin (1727875959474386281153 / 20000000000000000000000) :=
        sin_lb_of_taylor _ _ (by norm_num) (by norm_num) (by norm_num)
    _ ≤ Real.sin (Real.pi * (11 / 400)) :=
        Real.sin_le_sin_of_le_of_le_pi_div_two (by linarith [Real.pi_pos]) hub hg

theorem cos_gamma3_ub : Real.cos (Real.pi / 36) ≤ 0.996194699 := by
  have hg : (157079632679489661923 / 1800000000000000000000 : ℝ) ≤ Real.pi / 36 := by
    have := Real.pi_gt_d20
    linarith
  calc Real.cos (Real.pi / 36)
      ≤ Real.cos (157079632679489661923 / 1800000000000000000000) :=
        Real.cos_le_cos_of_nonneg_of_le_pi (by norm_num)
          (by linarith [Real.pi_gt_three]) hg
    _ ≤ 0.996194699 := cos_ub_of_taylor _ _ (by norm_num) (by norm_num) (by norm_num)

theorem cos_gamma3_lb : (0.996194698 : ℝ) ≤ Real.cos (Real.pi / 36) := by
  have hg : Real.pi / 36 ≤ 314159265358979323847 / 3600000000000000000000 := by
    have := Real.pi_lt_d20
    linarith
  calc (0.996194698 : ℝ)
      ≤ Real.cos (314159265358979323847 / 3600000000000000000000) :=
        cos_lb_of_taylor _ _ (by norm_num) (by norm_num) (by norm_num)
    _ ≤ Real.cos (Real.pi / 36) :=
        Real.cos_le_cos_of_nonneg_of_le_pi (by linarith [Real.pi_pos])
          (by linarith [Real.pi_gt_three]) hg

theorem sin_gamma3_ub : Real.sin (Real.pi / 36) ≤ 0.08715574275 := by
  have hg : Real.pi / 36 ≤ 314159265358979323847 / 3600000000000000000000 := by
    have := Real.pi_lt_d20
    linarith
  calc Real.sin (Real.pi / 36)
      ≤ Real.sin (314159265358979323847 / 3600000000000000000000) :=
        Real.sin_le_sin_of_le_of_le_pi_div_two (by linarith [Real.pi_pos])
          (by linarith [Real.pi_gt_three]) hg
    _ ≤ 0.08715574275 := sin_ub_of_taylor _ _ (by norm_num) (by norm_num) (by norm_num)

theorem sin_gamma3_lb : (0.08715574274 : ℝ) ≤ Real.sin (Real.pi / 36) := by
  have hg : (157079632679489661923 / 1800000000000000000000 : ℝ) ≤ Real.pi / 36 := by
    have := Real.pi_gt_d20
    linarith
  calc (0.08715574274 : ℝ)
      ≤ Real.sin (157079632679489661923 / 1800000000000000000000) :=
        sin_lb_of_taylor _ _ (by norm_num) (by norm_num) (by norm_num)
    _ ≤ Real.sin (Real.pi / 36) :=
        Real.sin_le_sin_of_le_of_le_pi_div_two (by linarith [Real.pi_pos])
          (by linarith [Real.pi_gt_three]) hg

/-- Positivity of `sin γ` at the clamp co-latitude. -/
theorem sin_gamma_pos : 0 < Real.sin (Real.pi * (27493729 / 1000000000)) :=
  lt_of_lt_of_le (by norm_num) sin_gamma_lb

/-- Positivity of `sin (π/36)`. -/
theorem sin_gamma3_pos : 0 < Real.sin (Real.pi / 36) :=
  lt_of_lt_of_le (by norm_num) sin_gamma3_lb

/-- If `|v| ≤ c` and `sinh c ≤ S < tan w` for a `w ∈ (0, π/2)`, then
`|arctan (sinh v)| < w`: the generic step bounding a tile-center latitude. -/
theorem abs_arctan_sinh_lt (v c S w : ℝ) (hv : |v| ≤ c) (hS : Real.sinh c ≤ S)
    (hw1 : 0 < w) (hw2 : w < Real.pi / 2)
    (htan : S < Real.sin w / Real.cos w) :
    |Real.arctan (Real.sinh v)| < w := by
  have habs : |Real.arctan (Real.sinh v)| = Real.arctan (Real.sinh |v|) := by
    rcases abs_cases v with ⟨h1, h2⟩ | ⟨h1, h2⟩
    · rw [h1, abs_of_nonneg]
      exact le_trans (le_of_eq Real.arctan_zero.symm)
        (Real.arctan_strictMono.monotone (Real.sinh_nonneg_iff.mpr h2))
    · rw [h1, Real.sinh_neg, Real.arctan_neg, abs_of_nonpos]
      exact le_trans (Real.arctan_strictMono.monotone (Real.sinh_nonpos_iff.mpr (le_of_lt h2)))
        (le_of_eq Real.arctan_zero)
  rw [habs]
  have hsS : Real.sinh |v| ≤ S := le_trans (Real.sinh_le_sinh.mpr hv) hS
  have htanw : Real.tan w = Real.sin w / Real.cos w := Real.tan_eq_sin_div_cos w
  calc Real.arctan (Real.sinh |v|)
      ≤ Real.arctan S := Real.arctan_strictMono.monotone hsS
    _ < Real.arctan (Real.tan w) :=
        Real.arctan_strictMono (by rw [htanw]; exact htan)
    _ = w := Real.arctan_tan (by linarith [Real.pi_pos]) hw2

/-- The latitude `tile_center_lonlat` computes stays strictly inside the
Web-Mercator clamp band: `|arctan (sinh v)| < π/2 − γ` for
`|v| ≤ π·(2²²−1)/2²²` (the extreme center offset for zooms up to 22). -/
theorem center_arctan_lt_clamp (v : ℝ)
    (hv : |v| ≤ Real.pi * (4194303 / 4194304)) :
    |Real.arctan (Real.sinh v)| <
      Real.pi / 2 - Real.pi * (27493729 / 1000000000) := by
  refine abs_arctan_sinh_lt v (Real.pi * (4194303 / 4194304)) 11.54873068
    (Real.pi / 2 - Real.pi * (27493729 / 1000000000)) hv ?_ ?_ ?_ ?_
  · have hc : Real.pi * (4194303 / 4194304) ≤
        1317679149172963054949443641 / 419430400000000000000000000 := by
      calc Real.pi * (4194303 / 4194304)
          ≤ 3.14159265358979323847 * (4194303 / 4194304) :=
            mul_le_mul_of_nonneg_right (le_of_lt Real.pi_lt_d20) (by norm_num)
        _ = 1317679149172963054949443641 / 419430400000000000000000000 := by norm_num
    exact le_trans (Real.sinh_le_sinh.mpr hc) sinh_ubar_ub
  · nlinarith [Real.pi_pos]
  · nlinarith [Real.pi_pos]
  · rw [Real.sin_pi_div_two_sub, Real.cos_pi_div_two_sub, lt_div_iff sin_gamma_pos]
    calc (11.54873068 : ℝ) * Real.sin (Real.pi * (27493729 / 1000000000))
        ≤ 11.54873068 * 0.086266738331 :=
          mul_le_mul_of_nonneg_left sin_gamma_ub (by norm_num)
      _ < 0.996272076221041 := by norm_num
      _ ≤ Real.cos (Real.pi * (27493729 / 1000000000)) := cos_gamma_lb

theorem pi_lt_frac : Real.pi < 314159265358979323847 / 100000000000000000000 := by
  linarith [Real.pi_lt_d20]

theorem pi_gt_frac : (314159265358979323846 / 100000000000000000000 : ℝ) < Real.pi := by
  linarith [Real.pi_gt_d20]

/-- Tile-center latitudes at zoom 2 stay strictly inside `±85°`:
`|arctan (sinh v)| < π/2 − π/36` for `|v| ≤ 3π/4`. -/
theorem center_arctan_lt_85 (v : ℝ) (hv : |v| ≤ 3 * Real.pi / 4) :
    |Real.arctan (Real.sinh v)| < Real.pi / 2 - Real.pi / 36 := by
  refine abs_arctan_sinh_lt v (3 * Real.pi / 4) 5.22797195
    (Real.pi / 2 - Real.pi / 36) hv ?_ ?_ ?_ ?_
  · have hc : 3 * Real.pi / 4 ≤ 942477796076937971541 / 400000000000000000000 := by
      linarith [Real.pi_lt_d20]
    exact le_trans (Real.sinh_le_sinh.mpr hc) sinh_34_pu_ub
  · nlinarith [Real.pi_pos]
  · nlinarith [Real.pi_pos]
  · rw [Real.sin_pi_div_two_sub, Real.cos_pi_div_two_sub, lt_div_iff sin_gamma3_pos]
    calc (5.22797195 : ℝ) * Real.sin (Real.pi / 36)
        ≤ 5.22797195 * 0.08715574275 :=
          mul_le_mul_of_nonneg_left sin_gamma3_ub (by norm_num)
      _ < 0.996194698 := by norm_num
      _ ≤ Real.cos (Real.pi / 36) := cos_gamma3_lb

/-- `e^π < (1 + cos γ)/sin γ` at the clamp co-latitude `γ = π·0.027493729`:
the Web-Mercator clamp `85.05112878°` lies (just) beyond the latitude whose
Mercator ordinate is `π`. -/
theorem clamp_Q_gt :
    Real.exp Real.pi <
      (1 + Real.cos (Real.pi * (27493729 / 1000000000))) /
        Real.sin (Real.pi * (27493729 / 1000000000)) := by
  have h1 : Real.exp Real.pi ≤ 23.14069263277928 :=
    le_trans (Real.exp_le_exp.mpr (le_of_lt pi_lt_frac)) exp_pu_ub
  have h3 : ((1 : ℝ) + 0.996272076221041) / 0.086266738331 ≤
      (1 + Real.cos (Real.pi * (27493729 / 1000000000))) /
        Real.sin (Real.pi * (27493729 / 1000000000)) :=
    div_le_div (by linarith [cos_gamma_lb]) (by linarith [cos_gamma_lb])
      sin_gamma_pos sin_gamma_ub
  have h2 : (23.14069263277928 : ℝ) < (1 + 0.996272076221041) / 0.086266738331 := by
    norm_num
  linarith

/-- `(1 + cos γ)/sin γ < e⁹` at the clamp co-latitude: the clamp ordinate is
below `9 < 3π`. -/
theorem clamp_Q_lt :
    (1 + Real.cos (Real.pi * (27493729 / 1000000000))) /
        Real.sin (Real.pi * (27493729 / 1000000000)) < Real.exp 9 := by
  have h1 : (1 + Real.cos (Real.pi * (27493729 / 1000000000))) /
      Real.sin (Real.pi * (27493729 / 1000000000)) ≤ (2 : ℝ) / 0.08626673 :=
    div_le_div (by norm_num)
      (by linarith [Real.cos_le_one (Real.pi * (27493729 / 1000000000))])
      (by norm_num) sin_gamma_lb
  have h2 : ((2 : ℝ) / 0.08626673) < 8000 := by norm_num
  linarith [exp_nine_lb]

/-- `(1 + cos(π/36))/sin(π/36) < e^π`: the Mercator ordinate of `85°` is
below π. -/
theorem q85_lt :
    (1 + Real.cos (Real.pi / 36)) / Real.sin (Real.pi / 36) < Real.exp Real.pi := by
  have h1 : (1 + Real.cos (Real.pi / 36)) / Real.sin (Real.pi / 36) ≤
      ((1 : ℝ) + 0.996194699) / 0.08715574274 :=
    div_le_div (by norm_num) (by linarith [cos_gamma3_ub]) (by norm_num) sin_gamma3_lb
  have h2 : ((1 : ℝ) + 0.996194699) / 0.08715574274 < 23.1406926 := by norm_num
  have h3 : (23.1406926 : ℝ) ≤ Real.exp Real.pi :=
    le_trans exp_pl_lb (Real.exp_le_exp.mpr (le_of_lt pi_gt_frac))
  linarith

/-- `e^{π/2} < (1 + cos(π/36))/sin(π/36)`: the Mercator ordinate of `85°` is
above `π/2`. -/
theorem q85_gt :
    Real.exp (Real.pi / 2) < (1 + Real.cos (Real.pi / 36)) / Real.sin (Real.pi / 36) := by
  have h1 : Real.exp (Real.pi / 2) ≤ 4.810477381 :=
    le_trans (Real.exp_le_exp.mpr (by linarith [pi_lt_frac])) exp_half_pu_ub
  have h2 : (4.810477381 : ℝ) < (1 + 0.996194698) / 0.08715574275 := by norm_num
  have h3 : ((1 : ℝ) + 0.996194698) / 0.08715574275 ≤
      (1 + Real.cos (Real.pi / 36)) / Real.sin (Real.pi / 36) :=
    div_le_div (by linarith [cos_gamma3_lb]) (by linarith [cos_gamma3_lb])
      sin_gamma3_pos sin_gamma3_ub
  linarith

/-! Bounds on `sin` and `cos` over the latitude band `[-85.05°, 85.05°]` in
radians, i.e. `|r| ≤ π·(189/400)`. -/

theorem band_cos_lb (r : ℝ) (hr : |r| ≤ Real.pi * (189 / 400)) :
    (0.0862863 : ℝ) ≤ Real.cos r := by
  have heq : Real.pi * (189 / 400) = Real.pi / 2 - Real.pi * (11 / 400) := by ring
  have h1 : Real.cos (Real.pi * (189 / 400)) ≤ Real.cos |r| :=
    Real.cos_le_cos_of_nonneg_of_le_pi (abs_nonneg r) (by nlinarith [Real.pi_pos]) hr
  have h2 : Real.cos (Real.pi * (189 / 400)) = Real.sin (Real.pi * (11 / 400)) := by
    rw [heq, Real.cos_pi_div_two_sub]
  rw [Real.cos_abs] at h1
  linarith [sin_gamma2_lb]

theorem band_sin_ub (r : ℝ) (hr : |r| ≤ Real.pi * (189 / 400)) :
    Real.sin r ≤ 0.99627038 := by
  have heq : Real.pi * (189 / 400) = Real.pi / 2 - Real.pi * (11 / 400) := by ring
  have h1 : Real.sin r ≤ Real.sin (Real.pi * (189 / 400)) := by
    refine Real.sin_le_sin_of_le_of_le_pi_div_two ?_ (by nlinarith [Real.pi_pos]) ?_
    · have := neg_abs_le r
      nlinarith [Real.pi_pos]
    · exact le_trans (le_abs_self r) hr
  have h2 : Real.sin (Real.pi * (189 / 400)) = Real.cos (Real.pi * (11 / 400)) := by
    rw [heq, Real.sin_pi_div_two_sub]
  linarith [cos_gamma2_ub]

theorem band_q_pos (r : ℝ) (hr : |r| ≤ Real.pi * (189 / 400)) :
    0 < (1 + Real.sin r) / Real.cos r := by
  have hs : Real.sin (-r) ≤ 0.99627038 := band_sin_ub (-r) (by rwa [abs_neg])
  rw [Real.sin_neg] at hs
  have hc := band_cos_lb r hr
  have hnum : 0 < 1 + Real.sin r := by linarith
  exact div_pos hnum (by linarith)

theorem band_q_lt (r : ℝ) (hr : |r| ≤ Real.pi * (189 / 400)) :
    (1 + Real.sin r) / Real.cos r < Real.exp Real.pi := by
  have hc := band_cos_lb r hr
  have hq : (1 + Real.sin r) / Real.cos r ≤ ((1 : ℝ) + 0.99627038) / 0.0862863 :=
    div_le_div (by norm_num) (by linarith [band_sin_ub r hr]) (by norm_num) hc
  have h2 : ((1 : ℝ) + 0.99627038) / 0.0862863 < 23.1406926 := by norm_num
  have h3 : (23.1406926 : ℝ) ≤ Real.exp Real.pi :=
    le_trans exp_pl_lb (Real.exp_le_exp.mpr (le_of_lt pi_gt_frac))
  linarith

theorem band_q_gt (r : ℝ) (hr : |r| ≤ Real.pi * (189 / 400)) :
    Real.exp (-Real.pi) < (1 + Real.sin r) / Real.cos r := by
  have h1 := band_q_lt (-r) (by rwa [abs_neg])
  have h2 := band_q_pos (-r) (by rwa [abs_neg])
  rw [Real.sin_neg, Real.cos_neg] at h1 h2
  have hc := band_cos_lb r hr
  have hsu := band_sin_ub r hr
  have hident : (1 + Real.sin r) / Real.cos r = ((1 + -Real.sin r) / Real.cos r)⁻¹ := by
    rw [inv_div]
    rw [div_eq_div_iff (by linarith) (by linarith)]
    have := Real.sin_sq_add_cos_sq r
    nlinarith
  rw [hident, Real.exp_neg]
  exact inv_lt_inv_of_lt h2 h1

/-! ## Round-trip behaviour of the coordinate transforms (C3) -/

/-- `pytrunc` on a nonnegative argument is the floor. -/
theorem pytrunc_of_nonneg (x : ℝ) (h : 0 ≤ x) : pytrunc x = ⌊x⌋ :=
  if_neg (not_lt.mpr h)

/-- The longitude half of the round trip: converting a tile-center longitude
back to a column recovers the column. -/
theorem lon_to_tile_x_center (z : ℕ) (col : ℤ) (h1 : 0 ≤ col) (h2 : col ≤ 2 ^ z - 1) :
    lon_to_tile_x (((col : ℝ) + 0.5) / 2 ^ z * 360 - 180) z = col := by
  simp only [lon_to_tile_x]
  have hn : (0 : ℝ) < 2 ^ z := by positivity
  have harg : (((col : ℝ) + 0.5) / 2 ^ z * 360 - 180 + 180) / 360 * (2 ^ z : ℝ) =
      (col : ℝ) + 0.5 := by
    field_simp
    ring
  rw [harg]
  have hnn : (0 : ℝ) ≤ (col : ℝ) + 0.5 := by
    have : (0 : ℝ) ≤ (col : ℝ) := by exact_mod_cast h1
    linarith
  rw [pytrunc_of_nonneg _ hnn]
  have hfl : ⌊(col : ℝ) + 0.5⌋ = col := by
    rw [show ((col : ℝ) + 0.5) = (0.5 : ℝ) + (col : ℤ) by push_cast; ring,
      Int.floor_add_int]
    norm_num
  rw [hfl, min_eq_right h2, max_eq_right h1]

/-- The latitude half of the round trip: converting a tile-center latitude
back to a TMS row recovers the row, for zooms up to 22. -/
theorem lat_to_tile_y_center (z : ℕ) (row : ℤ) (hz : z ≤ 22)
    (hr1 : 0 ≤ row) (hr2 : row ≤ 2 ^ z - 1) :
    lat_to_tile_y
      (Real.arctan (Real.sinh (Real.pi *
        (1 - 2 * ((((2 : ℝ) ^ z - 1) - (row : ℝ) + 0.5) / 2 ^ z)))) * 180 / Real.pi)
      z = row := by
  have hn : (0 : ℝ) < 2 ^ z := by positivity
  have hn1 : (1 : ℝ) ≤ 2 ^ z := by
    have h : (1 : ℕ) ≤ 2 ^ z := Nat.one_le_two_pow
    exact_mod_cast h
  have hrow1 : (0 : ℝ) ≤ (row : ℝ) := by exact_mod_cast hr1
  have hrow2 : (row : ℝ) ≤ (2 : ℝ) ^ z - 1 := by
    have : ((row : ℝ)) ≤ ((2 ^ z - 1 : ℤ) : ℝ) := by exact_mod_cast hr2
    push_cast at this
    linarith
  -- the center offset
  set q : ℝ := (2 * (row : ℝ) + 1 - 2 ^ z) / 2 ^ z with hqdef
  have hform : 1 - 2 * ((((2 : ℝ) ^ z - 1) - (row : ℝ) + 0.5) / 2 ^ z) = q := by
    rw [hqdef]
    field_simp
    ring
  rw [hform]
  set u : ℝ := Real.pi * q with hudef
  set A : ℝ := Real.arctan (Real.sinh u) with hAdef
  -- bound on the offset
  have hqabs : |q| ≤ 4194303 / 4194304 := by
    have hzpow : (2 : ℝ) ^ z ≤ 2 ^ 22 := by
      exact pow_le_pow_right (by norm_num) hz
    rw [hqdef, abs_div, abs_of_pos hn, div_le_iff hn]
    have habs : |2 * (row : ℝ) + 1 - 2 ^ z| ≤ 2 ^ z - 1 := by
      rw [abs_le]
      constructor <;> nlinarith
    nlinarith [habs]
  have huabs : |u| ≤ Real.pi * (4194303 / 4194304) := by
    rw [hudef, abs_mul, abs_of_pos Real.pi_pos]
    exact mul_le_mul_of_nonneg_left hqabs (le_of_lt Real.pi_pos)
  have hclamp := center_arctan_lt_clamp u huabs
  -- the latitude in degrees and its clamp bound
  have hpi180 : (0 : ℝ) < 180 / Real.pi := by positivity
  have hlatabs : |A * 180 / Real.pi| < 85.05112878 := by
    rw [abs_div, abs_mul, abs_of_pos Real.pi_pos, abs_of_pos (show (0:ℝ) < 180 by norm_num),
      div_lt_iff Real.pi_pos]
    calc |A| * 180 < (Real.pi / 2 - Real.pi * (27493729 / 1000000000)) * 180 := by
          have := hclamp
          nlinarith
      _ = 85.05112878 * Real.pi := by ring
  have hlat1 : A * 180 / Real.pi ≤ 85.05112878 := le_of_lt (abs_lt.mp hlatabs).2
  have hlat2 : (-85.05112878 : ℝ) ≤ A * 180 / Real.pi := le_of_lt (abs_lt.mp hlatabs).1
  simp only [lat_to_tile_y]
  rw [min_eq_right hlat1, max_eq_right hlat2]
  have hrad : A * 180 / Real.pi * Real.pi / 180 = A := by
    field_simp
  rw [hrad]
  -- tan + sec at the arctangent
  have hsec : Real.tan A + 1 / Real.cos A = Real.exp u := by
    rw [hAdef, Real.tan_arctan, Real.cos_arctan, one_div_one_div]
    have hsq : 1 + Real.sinh u ^ 2 = Real.cosh u ^ 2 := by
      rw [Real.cosh_sq]; ring
    rw [hsq, Real.sqrt_sq (le_of_lt (Real.cosh_pos u)), Real.sinh_add_cosh]
  rw [hsec, Real.log_exp]
  -- the resulting xyz ordinate
  have hyx : (1 - u / Real.pi) / 2 * (2 : ℝ) ^ z = (2 : ℝ) ^ z - (row : ℝ) - 1 / 2 := by
    rw [hudef, hqdef]
    have hpi := Real.pi_ne_zero
    field_simp
    ring
  rw [hyx]
  have hpos : (0 : ℝ) ≤ (2 : ℝ) ^ z - (row : ℝ) - 1 / 2 := by linarith
  rw [pytrunc_of_nonneg _ hpos]
  have hfl : ⌊(2 : ℝ) ^ z - (row : ℝ) - 1 / 2⌋ = 2 ^ z - 1 - row := by
    rw [show (2 : ℝ) ^ z - (row : ℝ) - 1 / 2 = (1 / 2 : ℝ) + ((2 ^ z - 1 - row : ℤ) : ℝ) by
      push_cast; ring, Int.floor_add_int]
    norm_num
  rw [hfl]
  ring

/-! ## Range and cardinality of the bbox enumeration (C2) -/

/-- Any latitude in the band `[-85.05°, 85.05°]` converts to a row within
`[0, 2^z − 1]`. -/
theorem lat_to_tile_y_range (lat : ℝ) (z : ℕ) (h1 : -85.05 ≤ lat) (h2 : lat ≤ 85.05) :
    0 ≤ lat_to_tile_y lat z ∧ lat_to_tile_y lat z ≤ 2 ^ z - 1 := by
  simp only [lat_to_tile_y]
  rw [min_eq_right (by linarith : lat ≤ 85.05112878),
    max_eq_right (by linarith : (-85.05112878 : ℝ) ≤ lat)]
  have hr : |lat * Real.pi / 180| ≤ Real.pi * (189 / 400) := by
    rw [abs_div, abs_mul, abs_of_pos Real.pi_pos,
      abs_of_pos (show (0 : ℝ) < 180 by norm_num), div_le_iff (by norm_num : (0:ℝ) < 180)]
    have hla : |lat| ≤ 85.05 := abs_le.mpr ⟨h1, h2⟩
    nlinarith [Real.pi_pos]
  have hq : Real.tan (lat * Real.pi / 180) + 1 / Real.cos (lat * Real.pi / 180) =
      (1 + Real.sin (lat * Real.pi / 180)) / Real.cos (lat * Real.pi / 180) := by
    rw [Real.tan_eq_sin_div_cos, div_add_div_same, add_comm]
  rw [hq]
  have hqpos := band_q_pos _ hr
  have hlog1 : Real.log ((1 + Real.sin (lat * Real.pi / 180)) /
      Real.cos (lat * Real.pi / 180)) < Real.pi :=
    (Real.log_lt_iff_lt_exp hqpos).mpr (band_q_lt _ hr)
  have hlog2 : -Real.pi < Real.log ((1 + Real.sin (lat * Real.pi / 180)) /
      Real.cos (lat * Real.pi / 180)) :=
    (Real.lt_log_iff_exp_lt hqpos).mpr (band_q_gt _ hr)
  set L := Real.log ((1 + Real.sin (lat * Real.pi / 180)) /
    Real.cos (lat * Real.pi / 180)) with hLdef
  have hn : (0 : ℝ) < 2 ^ z := by positivity
  have hd1 : L / Real.pi < 1 := (div_lt_one Real.pi_pos).mpr hlog1
  have hd2 : -1 < L / Real.pi := by
    rw [neg_lt, ← neg_div]
    exact (div_lt_one Real.pi_pos).mpr (by linarith)
  have hy1 : 0 ≤ (1 - L / Real.pi) / 2 * 2 ^ z := by
    apply mul_nonneg _ (le_of_lt hn)
    linarith
  have hy2 : (1 - L / Real.pi) / 2 * 2 ^ z < 2 ^ z := by
    nlinarith
  rw [pytrunc_of_nonneg _ hy1]
  have hfl1 : 0 ≤ ⌊(1 - L / Real.pi) / 2 * 2 ^ z⌋ := Int.floor_nonneg.mpr hy1
  have hfl2 : ⌊(1 - L / Real.pi) / 2 * 2 ^ z⌋ < 2 ^ z := by
    rw [Int.floor_lt]
    push_cast
    exact hy2
  constructor
  · linarith
  · linarith

/-- Columns produced by `lon_to_tile_x` always lie within `[0, 2^z − 1]`. -/
theorem lon_to_tile_x_range (lon : ℝ) (z : ℕ) :
    0 ≤ lon_to_tile_x lon z ∧ lon_to_tile_x lon z ≤ 2 ^ z - 1 := by
  simp only [lon_to_tile_x]
  have h1 : (1 : ℤ) ≤ 2 ^ z := by
    have h : (1 : ℕ) ≤ 2 ^ z := Nat.one_le_two_pow
    exact_mod_cast h
  exact ⟨le_max_left _ _, max_le (by linarith) (min_le_left _ _)⟩

theorem intRange_length (a b : ℤ) : (intRange a b).length = (b + 1 - a).toNat := by
  simp only [intRange, List.length_map, List.length_range]

theorem intRange_nodup (a b : ℤ) : (intRange a b).Nodup := by
  refine List.Nodup.map ?_ (List.nodup_range _)
  intro i j hij
  dsimp only at hij
  omega

theorem mem_intRange (x a b : ℤ) : x ∈ intRange a b ↔ a ≤ x ∧ x ≤ b := by
  unfold intRange
  rw [List.mem_map]
  constructor
  · rintro ⟨i, hi, hx⟩
    rw [List.mem_range] at hi
    omega
  · rintro ⟨h1, h2⟩
    refine ⟨(x - a).toNat, ?_, ?_⟩
    · rw [List.mem_range]
      omega
    · omega

/-- The bbox enumeration is the cartesian product of its two index ranges. -/
theorem get_tiles_in_bbox_eq_product (bbox : ℝ × ℝ × ℝ × ℝ) (z : ℕ) :
    get_tiles_in_bbox bbox z =
      (intRange (lon_to_tile_x bbox.1 z) (lon_to_tile_x bbox.2.2.1 z)) ×ˢ
      (intRange (min (lat_to_tile_y bbox.2.2.2 z) (lat_to_tile_y bbox.2.1 z))
                (max (lat_to_tile_y bbox.2.2.2 z) (lat_to_tile_y bbox.2.1 z))) := rfl

/-- `lon_to_tile_x 0 0 = 0`. -/
theorem lon_zero_zoom0 : lon_to_tile_x 0 0 = 0 := by
  simp only [lon_to_tile_x]
  rw [show ((0 : ℝ) + 180) / 360 * (2 ^ 0 : ℝ) = 1 / 2 by norm_num,
    pytrunc_of_nonneg _ (by norm_num)]
  norm_num

/-- `lat_to_tile_y (-86) 0 = -1`: a latitude below the clamp converts, at
zoom 0, to the out-of-range row `-1`. -/
theorem lat_m86_zoom0 : lat_to_tile_y (-86) 0 = -1 := by
  simp only [lat_to_tile_y]
  rw [min_eq_right (by norm_num : (-86 : ℝ) ≤ 85.05112878),
    max_eq_left (by norm_num : (-86 : ℝ) ≤ -85.05112878)]
  have hang : (-85.05112878 : ℝ) * Real.pi / 180 =
      -(Real.pi / 2 - Real.pi * (27493729 / 1000000000)) := by
    ring_nf
  rw [hang]
  have hsin := sin_gamma_pos
  have hcos := cos_gamma_lb
  have hq : Real.tan (-(Real.pi / 2 - Real.pi * (27493729 / 1000000000))) +
      1 / Real.cos (-(Real.pi / 2 - Real.pi * (27493729 / 1000000000))) =
      (1 - Real.cos (Real.pi * (27493729 / 1000000000))) /
        Real.sin (Real.pi * (27493729 / 1000000000)) := by
    rw [Real.tan_neg, Real.cos_neg, Real.tan_eq_sin_div_cos,
      Real.sin_pi_div_two_sub, Real.cos_pi_div_two_sub]
    field_simp
    ring_nf
  rw [hq]
  have hQpos : 0 < (1 + Real.cos (Real.pi * (27493729 / 1000000000))) /
      Real.sin (Real.pi * (27493729 / 1000000000)) :=
    div_pos (by linarith) hsin
  have hident : (1 - Real.cos (Real.pi * (27493729 / 1000000000))) /
      Real.sin (Real.pi * (27493729 / 1000000000)) =
      ((1 + Real.cos (Real.pi * (27493729 / 1000000000))) /
        Real.sin (Real.pi * (27493729 / 1000000000)))⁻¹ := by
    rw [inv_div]
    rw [div_eq_div_iff (ne_of_gt hsin) (by linarith)]
    have hpyth := Real.sin_sq_add_cos_sq (Real.pi * (27493729 / 1000000000))
    nlinarith
  rw [hident, Real.log_inv]
  have hlam1 : Real.pi < Real.log ((1 + Real.cos (Real.pi * (27493729 / 1000000000))) /
      Real.sin (Real.pi * (27493729 / 1000000000))) :=
    (Real.lt_log_iff_exp_lt hQpos).mpr clamp_Q_gt
  have hlam2 : Real.log ((1 + Real.cos (Real.pi * (27493729 / 1000000000))) /
      Real.sin (Real.pi * (27493729 / 1000000000))) < 9 :=
    (Real.log_lt_iff_lt_exp hQpos).mpr clamp_Q_lt
  set Lam := Real.log ((1 + Real.cos (Real.pi * (27493729 / 1000000000))) /
    Real.sin (Real.pi * (27493729 / 1000000000))) with hLamdef
  have hdiv1 : 1 < Lam / Real.pi := (one_lt_div Real.pi_pos).mpr hlam1
  have hdiv2 : Lam / Real.pi < 3 := by
    rw [div_lt_iff Real.pi_pos]
    nlinarith [Real.pi_gt_three]
  have hyval : (1 - -Lam / Real.pi) / 2 * (2 ^ 0 : ℝ) = (1 + Lam / Real.pi) / 2 := by
    rw [neg_div]
    norm_num
  rw [hyval]
  have hykey : pytrunc ((1 + Lam / Real.pi) / 2) = 1 := by
    rw [pytrunc_of_nonneg _ (by linarith)]
    rw [Int.floor_eq_iff]
    constructor
    · push_cast
      linarith
    · push_cast
      linarith
  rw [hykey]
  norm_num

/-! ## Evaluating scenario A (C1 and the C6 counterexample) -/

theorem scenA_lon_left : lon_to_tile_x (-180) 2 = 0 := by
  simp only [lon_to_tile_x]
  rw [show ((-180 : ℝ) + 180) / 360 * (2 ^ 2 : ℝ) = 0 by norm_num,
    pytrunc_of_nonneg 0 le_rfl, Int.floor_zero]
  decide

theorem scenA_lon_right : lon_to_tile_x 0 2 = 2 := by
  simp only [lon_to_tile_x]
  rw [show ((0 : ℝ) + 180) / 360 * (2 ^ 2 : ℝ) = 2 by norm_num,
    pytrunc_of_nonneg 2 (by norm_num)]
  rw [show ⌊(2 : ℝ)⌋ = 2 by norm_num]
  decide

theorem scenA_lat_top : lat_to_tile_y 85 2 = 3 := by
  simp only [lat_to_tile_y]
  rw [min_eq_right (by norm_num : (85 : ℝ) ≤ 85.05112878),
    max_eq_right (by norm_num : (-85.05112878 : ℝ) ≤ 85)]
  rw [show (85 : ℝ) * Real.pi / 180 = Real.pi / 2 - Real.pi / 36 by ring]
  have hsin := sin_gamma3_pos
  rw [show Real.tan (Real.pi / 2 - Real.pi / 36) + 1 / Real.cos (Real.pi / 2 - Real.pi / 36) =
      (1 + Real.cos (Real.pi / 36)) / Real.sin (Real.pi / 36) by
    rw [Real.tan_eq_sin_div_cos, Real.sin_pi_div_two_sub, Real.cos_pi_div_two_sub,
      div_add_div_same, add_comm]]
  have hQpos : 0 < (1 + Real.cos (Real.pi / 36)) / Real.sin (Real.pi / 36) :=
    div_pos (by linarith [cos_gamma3_lb]) hsin
  have hlog1 : Real.log ((1 + Real.cos (Real.pi / 36)) / Real.sin (Real.pi / 36)) < Real.pi :=
    (Real.log_lt_iff_lt_exp hQpos).mpr q85_lt
  have hlog2 : Real.pi / 2 <
      Real.log ((1 + Real.cos (Real.pi / 36)) / Real.sin (Real.pi / 36)) :=
    (Real.lt_log_iff_exp_lt hQpos).mpr q85_gt
  set L := Real.log ((1 + Real.cos (Real.pi / 36)) / Real.sin (Real.pi / 36)) with hLdef
  have hd1 : L / Real.pi < 1 := (div_lt_one Real.pi_pos).mpr hlog1
  have hd2 : 1 / 2 < L / Real.pi := by
    rw [div_lt_div_iff (by norm_num) Real.pi_pos]
    linarith
  have hval : ((1 : ℝ) - L / Real.pi) / 2 * (2 ^ 2 : ℝ) = 2 - 2 * (L / Real.pi) := by
    ring
  rw [hval, pytrunc_of_nonneg _ (by linarith)]
  rw [show ⌊(2 : ℝ) - 2 * (L / Real.pi)⌋ = 0 from by
    rw [Int.floor_eq_zero_iff, Set.mem_Ico]
    constructor <;> linarith]
  decide

theorem scenA_lat_bottom : lat_to_tile_y (-85) 2 = 0 := by
  simp only [lat_to_tile_y]
  rw [min_eq_right (by norm_num : (-85 : ℝ) ≤ 85.05112878),
    max_eq_right (by norm_num : (-85.05112878 : ℝ) ≤ -85)]
  rw [show (-85 : ℝ) * Real.pi / 180 = -(Real.pi / 2 - Real.pi / 36) by ring]
  have hsin := sin_gamma3_pos
  have hcos := cos_gamma3_lb
  rw [show Real.tan (-(Real.pi / 2 - Real.pi / 36)) +
      1 / Real.cos (-(Real.pi / 2 - Real.pi / 36)) =
      (1 - Real.cos (Real.pi / 36)) / Real.sin (Real.pi / 36) by
    rw [Real.tan_neg, Real.cos_neg, Real.tan_eq_sin_div_cos,
      Real.sin_pi_div_two_sub, Real.cos_pi_div_two_sub]
    field_simp
    ring_nf]
  have hQpos : 0 < (1 + Real.cos (Real.pi / 36)) / Real.sin (Real.pi / 36) :=
    div_pos (by linarith) hsin
  rw [show (1 - Real.cos (Real.pi / 36)) / Real.sin (Real.pi / 36) =
      ((1 + Real.cos (Real.pi / 36)) / Real.sin (Real.pi / 36))⁻¹ by
    rw [inv_div, div_eq_div_iff (ne_of_gt hsin) (by linarith)]
    have hpyth := Real.sin_sq_add_cos_sq (Real.pi / 36)
    nlinarith]
  rw [Real.log_inv]
  have hlog1 : Real.log ((1 + Real.cos (Real.pi / 36)) / Real.sin (Real.pi / 36)) < Real.pi :=
    (Real.log_lt_iff_lt_exp hQpos).mpr q85_lt
  have hlog2 : Real.pi / 2 <
      Real.log ((1 + Real.cos (Real.pi / 36)) / Real.sin (Real.pi / 36)) :=
    (Real.lt_log_iff_exp_lt hQpos).mpr q85_gt
  set L := Real.log ((1 + Real.cos (Real.pi / 36)) / Real.sin (Real.pi / 36)) with hLdef
  have hd1 : L / Real.pi < 1 := (div_lt_one Real.pi_pos).mpr hlog1
  have hd2 : 1 / 2 < L / Real.pi := by
    rw [div_lt_div_iff (by norm_num) Real.pi_pos]
    linarith
  have hval : ((1 : ℝ) - -L / Real.pi) / 2 * (2 ^ 2 : ℝ) = 2 + 2 * (L / Real.pi) := by
    ring
  rw [hval, pytrunc_of_nonneg _ (by linarith)]
  rw [show ⌊(2 : ℝ) + 2 * (L / Real.pi)⌋ = 3 from by
    rw [Int.floor_eq_iff]
    constructor
    · push_cast
      linarith
    · push_cast
      linarith]
  decide

/-- The scenario A candidate enumeration at zoom 2. -/
theorem scenA_tiles : get_tiles_in_bbox (-180, -85, 0, 85) 2 = scenATiles12 := by
  rw [get_tiles_in_bbox_eq_product]
  dsimp only
  rw [scenA_lon_left, scenA_lon_right, scenA_lat_top, scenA_lat_bottom]
  decide
/-- Containment against the scenario A ring, for any point strictly inside
the latitude band `(-85, 85)` and east of `-180`: only the vertical edge at
longitude 0 can be crossed, so the point is inside iff its longitude is at
most 0. -/
theorem scenA_pip (p : ℝ × ℝ) (hx : -180 < p.1) (hy1 : -85 < p.2) (hy2 : p.2 < 85) :
    point_in_polygon p scenARing = some (decide (p.1 ≤ 0)) := by
  have hring : scenARing = ((-180 : ℝ), (-85 : ℝ)) ::
      [((0 : ℝ), (-85 : ℝ)), ((0 : ℝ), (85 : ℝ)), ((-180 : ℝ), (85 : ℝ)),
       ((-180 : ℝ), (-85 : ℝ))] := rfl
  rw [hring, point_in_polygon_eq_fresh]
  have he1 : edgeCross p.1 p.2 (((-180 : ℝ), (-85 : ℝ)), ((0 : ℝ), (-85 : ℝ))) = false := by
    simp only [edgeCross, decide_eq_false_iff_not]
    rintro ⟨⟨h1, h2, -⟩, -⟩
    simp only [min_self, max_self] at h1 h2
    norm_num at h1 h2
    linarith
  have he2 : edgeCross p.1 p.2 (((0 : ℝ), (-85 : ℝ)), ((0 : ℝ), (85 : ℝ))) =
      decide (p.1 ≤ 0) := by
    by_cases hx0 : p.1 ≤ 0
    · have hcross : EdgeCrossP p.1 p.2 (((0 : ℝ), (-85 : ℝ)), ((0 : ℝ), (85 : ℝ))) := by
        refine ⟨⟨?_, ?_, ?_⟩, Or.inl rfl⟩
        · rw [show min (((0 : ℝ), (-85 : ℝ)) : ℝ × ℝ).2 (((0 : ℝ), (85 : ℝ)) : ℝ × ℝ).2 =
            (-85 : ℝ) from by norm_num [min_def]]
          exact hy1
        · rw [show max (((0 : ℝ), (-85 : ℝ)) : ℝ × ℝ).2 (((0 : ℝ), (85 : ℝ)) : ℝ × ℝ).2 =
            (85 : ℝ) from by norm_num [max_def]]
          linarith
        · rw [show max (((0 : ℝ), (-85 : ℝ)) : ℝ × ℝ).1 (((0 : ℝ), (85 : ℝ)) : ℝ × ℝ).1 =
            (0 : ℝ) from by norm_num [max_def]]
          exact hx0
      rw [(edgeCross_eq_true_iff _ _ _).mpr hcross, decide_eq_true hx0]
    · have hncross : ¬ EdgeCrossP p.1 p.2 (((0 : ℝ), (-85 : ℝ)), ((0 : ℝ), (85 : ℝ))) := by
        rintro ⟨⟨-, -, h3⟩, -⟩
        rw [show max (((0 : ℝ), (-85 : ℝ)) : ℝ × ℝ).1 (((0 : ℝ), (85 : ℝ)) : ℝ × ℝ).1 =
            (0 : ℝ) from by norm_num [max_def]] at h3
        exact hx0 h3
      have h1 : edgeCross p.1 p.2 (((0 : ℝ), (-85 : ℝ)), ((0 : ℝ), (85 : ℝ))) = false := by
        rw [← decide_eq_true_iff (p := EdgeCrossP p.1 p.2
          (((0 : ℝ), (-85 : ℝ)), ((0 : ℝ), (85 : ℝ))))] at hncross
        · simp only [edgeCross, EdgeCrossP] at hncross ⊢
          exact Bool.not_eq_true _ |>.mp (by simpa using hncross)
      rw [h1, decide_eq_false hx0]
  have he3 : edgeCross p.1 p.2 (((0 : ℝ), (85 : ℝ)), ((-180 : ℝ), (85 : ℝ))) = false := by
    simp only [edgeCross, decide_eq_false_iff_not]
    rintro ⟨⟨h1, h2, -⟩, -⟩
    simp only [min_self, max_self] at h1 h2
    norm_num at h1 h2
    linarith
  have he4 : edgeCross p.1 p.2 (((-180 : ℝ), (85 : ℝ)), ((-180 : ℝ), (-85 : ℝ))) = false := by
    simp only [edgeCross, decide_eq_false_iff_not]
    rintro ⟨⟨-, -, h3⟩, -⟩
    simp only [max_self] at h3
    linarith
  have he5 : edgeCross p.1 p.2 (((-180 : ℝ), (-85 : ℝ)), ((-180 : ℝ), (-85 : ℝ))) = false :=
    edgeCross_self p.1 p.2 _
  have hcp : consPairs (((-180 : ℝ), (-85 : ℝ)) ::
      ([((0 : ℝ), (-85 : ℝ)), ((0 : ℝ), (85 : ℝ)), ((-180 : ℝ), (85 : ℝ)),
        ((-180 : ℝ), (-85 : ℝ))] ++ [((-180 : ℝ), (-85 : ℝ))])) =
      [((((-180 : ℝ), (-85 : ℝ))), (((0 : ℝ), (-85 : ℝ)))),
       ((((0 : ℝ), (-85 : ℝ))), (((0 : ℝ), (85 : ℝ)))),
       ((((0 : ℝ), (85 : ℝ))), (((-180 : ℝ), (85 : ℝ)))),
       ((((-180 : ℝ), (85 : ℝ))), (((-180 : ℝ), (-85 : ℝ)))),
       ((((-180 : ℝ), (-85 : ℝ))), (((-180 : ℝ), (-85 : ℝ))))] := rfl
  simp only [pipFresh, hcp, List.countP_cons, List.countP_nil, he1, he2, he3, he4, he5]
  by_cases hx0 : p.1 ≤ 0 <;> simp [hx0]
/-- A zoom-2 tile center with a valid row lies strictly inside the latitude
band `(-85, 85)`, and containment in the scenario A ring reduces to the sign
of its center longitude. -/
theorem scenA_tile_pip (c r : ℤ) (hc : 0 ≤ c) (hr1 : 0 ≤ r) (hr2 : r ≤ 3) :
    point_in_polygon (tile_center_lonlat 2 c r) scenARing =
      some (decide ((c : ℝ) * 90 - 135 ≤ 0)) := by
  have hrR1 : (0 : ℝ) ≤ (r : ℝ) := by exact_mod_cast hr1
  have hrR2 : (r : ℝ) ≤ 3 := by exact_mod_cast hr2
  have hcR : (0 : ℝ) ≤ (c : ℝ) := by exact_mod_cast hc
  have hlon : (tile_center_lonlat 2 c r).1 = (c : ℝ) * 90 - 135 := by
    simp only [tile_center_lonlat]
    norm_num
    ring
  have hlat : (tile_center_lonlat 2 c r).2 =
      Real.arctan (Real.sinh (Real.pi *
        (1 - 2 * ((((2 : ℝ) ^ 2 - 1) - (r : ℝ) + 0.5) / 2 ^ 2)))) * 180 / Real.pi := by
    simp only [tile_center_lonlat]
  have hu : |Real.pi * (1 - 2 * ((((2 : ℝ) ^ 2 - 1) - (r : ℝ) + 0.5) / 2 ^ 2))| ≤
      3 * Real.pi / 4 := by
    have hform : (1 : ℝ) - 2 * ((((2 : ℝ) ^ 2 - 1) - (r : ℝ) + 0.5) / 2 ^ 2) =
        (2 * (r : ℝ) - 3) / 4 := by
      norm_num
      ring
    rw [hform, abs_mul, abs_of_pos Real.pi_pos]
    have habs : |(2 * (r : ℝ) - 3) / 4| ≤ 3 / 4 := by
      rw [abs_div, abs_of_pos (show (0 : ℝ) < 4 by norm_num), div_le_div_iff_of_pos_right]
      · rw [abs_le]
        constructor <;> linarith
      · norm_num
    calc Real.pi * |(2 * (r : ℝ) - 3) / 4| ≤ Real.pi * (3 / 4) :=
          mul_le_mul_of_nonneg_left habs (le_of_lt Real.pi_pos)
      _ = 3 * Real.pi / 4 := by ring
  have hbound := center_arctan_lt_85 _ hu
  set A := Real.arctan (Real.sinh (Real.pi *
    (1 - 2 * ((((2 : ℝ) ^ 2 - 1) - (r : ℝ) + 0.5) / 2 ^ 2)))) with hAdef
  have h85 : |A * 180 / Real.pi| < 85 := by
    rw [abs_div, abs_mul, abs_of_pos Real.pi_pos,
      abs_of_pos (show (0 : ℝ) < 180 by norm_num), div_lt_iff Real.pi_pos]
    calc |A| * 180 < (Real.pi / 2 - Real.pi / 36) * 180 := by nlinarith [hbound]
      _ = 85 * Real.pi := by ring
  have hy1 : -85 < (tile_center_lonlat 2 c r).2 := by
    rw [hlat]
    exact (abs_lt.mp h85).1
  have hy2 : (tile_center_lonlat 2 c r).2 < 85 := by
    rw [hlat]
    exact (abs_lt.mp h85).2
  have hx : -180 < (tile_center_lonlat 2 c r).1 := by
    rw [hlon]
    linarith
  rw [scenA_pip _ hx hy1 hy2, hlon]

theorem scenA_pip00 : point_in_polygon (tile_center_lonlat 2 0 0) scenARing = some true := by
  rw [scenA_tile_pip 0 0 (by norm_num) (by norm_num) (by norm_num)]
  norm_num

theorem scenA_pip01 : point_in_polygon (tile_center_lonlat 2 0 1) scenARing = some true := by
  rw [scenA_tile_pip 0 1 (by norm_num) (by norm_num) (by norm_num)]
  norm_num

theorem scenA_pip02 : point_in_polygon (tile_center_lonlat 2 0 2) scenARing = some true := by
  rw [scenA_tile_pip 0 2 (by norm_num) (by norm_num) (by norm_num)]
  norm_num

theorem scenA_pip03 : point_in_polygon (tile_center_lonlat 2 0 3) scenARing = some true := by
  rw [scenA_tile_pip 0 3 (by norm_num) (by norm_num) (by norm_num)]
  norm_num

theorem scenA_pip10 : point_in_polygon (tile_center_lonlat 2 1 0) scenARing = some true := by
  rw [scenA_tile_pip 1 0 (by norm_num) (by norm_num) (by norm_num)]
  norm_num

theorem scenA_pip11 : point_in_polygon (tile_center_lonlat 2 1 1) scenARing = some true := by
  rw [scenA_tile_pip 1 1 (by norm_num) (by norm_num) (by norm_num)]
  norm_num

theorem scenA_pip12 : point_in_polygon (tile_center_lonlat 2 1 2) scenARing = some true := by
  rw [scenA_tile_pip 1 2 (by norm_num) (by norm_num) (by norm_num)]
  norm_num

theorem scenA_pip13 : point_in_polygon (tile_center_lonlat 2 1 3) scenARing = some true := by
  rw [scenA_tile_pip 1 3 (by norm_num) (by norm_num) (by norm_num)]
  norm_num

theorem scenA_pip20 : point_in_polygon (tile_center_lonlat 2 2 0) scenARing = some false := by
  rw [scenA_tile_pip 2 0 (by norm_num) (by norm_num) (by norm_num)]
  norm_num

theorem scenA_pip21 : point_in_polygon (tile_center_lonlat 2 2 1) scenARing = some false := by
  rw [scenA_tile_pip 2 1 (by norm_num) (by norm_num) (by norm_num)]
  norm_num

theorem scenA_pip22 : point_in_polygon (tile_center_lonlat 2 2 2) scenARing = some false := by
  rw [scenA_tile_pip 2 2 (by norm_num) (by norm_num) (by norm_num)]
  norm_num

theorem scenA_pip23 : point_in_polygon (tile_center_lonlat 2 2 3) scenARing = some false := by
  rw [scenA_tile_pip 2 3 (by norm_num) (by norm_num) (by norm_num)]
  norm_num

/-- The filtering loop over the scenario A candidates keeps exactly the
columns 0 and 1. -/
theorem scenA_kept :
    filterOptM
      (fun t : ℤ × ℤ => point_in_polygon (tile_center_lonlat 2 t.1 t.2) scenARing)
      scenATiles12 = some scenAKept8 := by
  simp only [scenATiles12, filterOptM, scenA_pip00, scenA_pip01, scenA_pip02, scenA_pip03,
    scenA_pip10, scenA_pip11, scenA_pip12, scenA_pip13, scenA_pip20, scenA_pip21,
    scenA_pip22, scenA_pip23]
  rfl
theorem scenA_map_delete :
    scenAKept8.map (fun t : ℤ × ℤ => (((2 : ℕ) : ℤ), t.1, t.2)) = scenADelete := by
  decide

theorem scenA_batches : toBatches 1000 scenADelete = [scenADelete] := by
  have h1 : scenADelete.take 1000 = scenADelete := by decide
  have h2 : scenADelete.drop 1000 = [] := by decide
  rw [show scenADelete = (2, 0, 0) :: scenADelete.tail from rfl]
  rw [toBatches]
  rw [show ((2 : ℤ), (0 : ℤ), (0 : ℤ)) :: scenADelete.tail = scenADelete from rfl, h1, h2]
  rw [toBatches]

theorem scenA_delete16 :
    delete_tiles false scenAStore16 scenADelete =
      (scenAStore8, 8, scenADelete.map Event.del) := by
  decide

theorem scenA_delete_empty :
    delete_tiles false [] scenADelete = ([], 0, scenADelete.map Event.del) := by
  decide

/-- One zoom-2 pass of scenario A over the full store: deletes the 8
western tiles. -/
theorem scenA_zoom_full :
    process_zoom scenARing (-180, -85, 0, 85) false 1000 2 (scenAStore16, 0, []) =
      some (scenAStore8, 8, scenADelete.map Event.del) := by
  simp only [process_zoom]
  rw [scenA_tiles, scenA_kept, Option.some_bind, scenA_map_delete,
    if_neg (by decide : ¬(scenADelete = [])), scenA_batches,
    List.foldl_cons, List.foldl_nil, scenA_delete16]
  simp

/-- One zoom-2 dry pass of scenario A over the empty store: reports 8. -/
theorem scenA_zoom_dry_empty :
    process_zoom scenARing (-180, -85, 0, 85) true 1000 2 ([], 0, []) =
      some ([], 8, []) := by
  simp only [process_zoom]
  rw [scenA_tiles, scenA_kept, Option.some_bind, scenA_map_delete,
    if_neg (by decide : ¬(scenADelete = [])), scenA_batches,
    List.foldl_cons, List.foldl_nil, delete_tiles_dry]
  simp [scenADelete]

/-- One zoom-2 non-dry pass of scenario A over the empty store: removes
nothing and reports 0. -/
theorem scenA_zoom_real_empty :
    process_zoom scenARing (-180, -85, 0, 85) false 1000 2 ([], 0, []) =
      some ([], 0, scenADelete.map Event.del) := by
  simp only [process_zoom]
  rw [scenA_tiles, scenA_kept, Option.some_bind, scenA_map_delete,
    if_neg (by decide : ¬(scenADelete = [])), scenA_batches,
    List.foldl_cons, List.foldl_nil, scenA_delete_empty]
  simp
theorem scenA_polygon : get_polygon_coords scenAFeature.geometry = scenARing := rfl

/-- Scenario A, one feature, zoom range `[2, 2]`, over the full store. -/
theorem scenA_single_full :
    process_single_feature scenAFeature 2 2 false 1000 scenAStore16 =
      some (scenAStore8, 8, scenADelete.map Event.del) := by
  simp only [process_single_feature, scenA_polygon]
  rw [if_neg (show ¬(scenARing = []) from by simp [scenARing])]
  rw [show (2 + 1 - 2 : ℕ) = 1 from rfl, List.range'_one, List.foldl_cons, List.foldl_nil,
    show scenAFeature.bbox = ((-180 : ℝ), (-85 : ℝ), (0 : ℝ), (85 : ℝ)) from rfl,
    Option.some_bind, scenA_zoom_full]

theorem scenA_single_dry_empty :
    process_single_feature scenAFeature 2 2 true 1000 [] = some ([], 8, []) := by
  simp only [process_single_feature, scenA_polygon]
  rw [if_neg (show ¬(scenARing = []) from by simp [scenARing])]
  rw [show (2 + 1 - 2 : ℕ) = 1 from rfl, List.range'_one, List.foldl_cons, List.foldl_nil,
    show scenAFeature.bbox = ((-180 : ℝ), (-85 : ℝ), (0 : ℝ), (85 : ℝ)) from rfl,
    Option.some_bind, scenA_zoom_dry_empty]

theorem scenA_single_real_empty :
    process_single_feature scenAFeature 2 2 false 1000 [] =
      some ([], 0, scenADelete.map Event.del) := by
  simp only [process_single_feature, scenA_polygon]
  rw [if_neg (show ¬(scenARing = []) from by simp [scenARing])]
  rw [show (2 + 1 - 2 : ℕ) = 1 from rfl, List.range'_one, List.foldl_cons, List.foldl_nil,
    show scenAFeature.bbox = ((-180 : ℝ), (-85 : ℝ), (0 : ℝ), (85 : ℝ)) from rfl,
    Option.some_bind, scenA_zoom_real_empty]

/-- Scenario A end to end, non-dry, on the full 4×4 grid: the engine
returns 8 and the store keeps exactly the 8 eastern tiles. -/
theorem scenA_features_full :
    process_features [("test", scenAFeature)] 2 2 false 1000 scenAStore16 =
      some (scenAStore8, 8) := by
  simp only [process_features, process_features_trace, process_all_features,
    List.foldl_cons, List.foldl_nil, Option.some_bind, scenA_single_full]
  norm_num

theorem scenA_features_dry_empty :
    process_features [("test", scenAFeature)] 2 2 true 1000 [] = some ([], 8) := by
  simp only [process_features, process_features_trace, process_all_features,
    List.foldl_cons, List.foldl_nil, Option.some_bind, scenA_single_dry_empty]
  norm_num

theorem scenA_features_real_empty :
    process_features [("test", scenAFeature)] 2 2 false 1000 [] = some ([], 0) := by
  simp only [process_features, process_features_trace, process_all_features,
    List.foldl_cons, List.foldl_nil, Option.some_bind, scenA_single_real_empty]
  norm_num

/-! ## Claim theorems for the containment test (C7, C8, C10) -/

/-- C7: `point_in_polygon` gives the same result on a ring and on its
reversal, and the same result whether or not the ring's first vertex is
repeated as its last vertex. -/
theorem c7_winding_and_closure_invariance {α : Type} [LinearOrderedField α]
    (p : α × α) (ring : List (α × α)) (v : α × α) (rest : List (α × α)) :
    point_in_polygon p ring = point_in_polygon p ring.reverse ∧
    point_in_polygon p (v :: rest) = point_in_polygon p ((v :: rest) ++ [v]) := by
  constructor
  · rcases ring with _ | ⟨a, t⟩
    · rfl
    · obtain ⟨c, s, hcs⟩ : ∃ c s, (a :: t).reverse = c :: s := by
        rcases hr : (a :: t).reverse with _ | ⟨c, s⟩
        · exact absurd hr (by simp)
        · exact ⟨c, s, rfl⟩
      rw [point_in_polygon_eq_fresh p a t, hcs, point_in_polygon_eq_fresh p c s, ← hcs,
        pipFresh_reverse]
  · have hshape : (v :: rest) ++ [v] = v :: (rest ++ [v]) := by simp
    rw [point_in_polygon_eq_fresh p v rest, hshape,
      point_in_polygon_eq_fresh p v (rest ++ [v]), ← hshape, pipFresh_close]

/-- C8 counterexample: on the empty ring `point_in_polygon` does not return
`False` — it raises (`IndexError` on `polygon[0]`, modelled by `none`). -/
theorem c8_empty_ring_counterexample :
    point_in_polygon ((0 : ℚ), (0 : ℚ)) ([] : List (ℚ × ℚ)) = none ∧
    point_in_polygon ((0 : ℚ), (0 : ℚ)) ([] : List (ℚ × ℚ)) ≠ some false := by
  exact ⟨rfl, by simp [point_in_polygon]⟩

/-- C8 amended: on rings of one or two vertices `point_in_polygon` returns
`False` for every point (the empty ring instead raises `IndexError`). -/
theorem c8_small_rings_never_contain {α : Type} [LinearOrderedField α]
    (p v w : α × α) :
    point_in_polygon p [v] = some false ∧ point_in_polygon p [v, w] = some false := by
  constructor
  · rw [point_in_polygon_eq_fresh p v []]
    have h : pipFresh p [v] = false := by
      rw [pipFresh_eq_countP]
      have : consPairs ([v] ++ [v]) = [(v, v)] := rfl
      rw [this, List.countP_cons, List.countP_nil, edgeCross_self]
      simp
    rw [h]
  · rw [point_in_polygon_eq_fresh p v [w]]
    have h : pipFresh p [v, w] = false := by
      rw [pipFresh_eq_countP]
      have hc : consPairs ([v, w] ++ [v]) = [(v, w), (w, v)] := rfl
      rw [hc, List.countP_cons, List.countP_cons, List.countP_nil,
        edgeCross_swap p.1 p.2 w v]
      rcases hb : edgeCross p.1 p.2 (v, w) with _ | _ <;> simp [hb]
    rw [h]

/-- C10: the ray-casting loop never divides by `p2y − p1y = 0` and never
reads `xinters` without having assigned it in the current iteration: the
instrumented run (which aborts on exactly those two hazards) agrees with
the faithful run, and the faithful run always returns a value on a nonempty
ring. -/
theorem c10_division_guard_safety {α : Type} [LinearOrderedField α]
    (p : α × α) (v : α × α) (rest : List (α × α)) :
    point_in_polygon_strict p (v :: rest) = point_in_polygon p (v :: rest) ∧
    ∃ b, point_in_polygon p (v :: rest) = some b := by
  constructor
  · have hsw : ∀ (l : List (α × α)) (st : PipState α),
        l.foldl (pipStep p.1 p.2) st = l.foldl (pipStepStrict p.1 p.2) st := by
      intro l
      induction l with
      | nil => intro st; rfl
      | cons a t ih =>
        intro st
        rw [List.foldl_cons, List.foldl_cons, pipStep_eq_strict, ih]
    have hs : point_in_polygon_strict p (v :: rest) =
        (if ((rest ++ [v]).foldl (pipStepStrict p.1 p.2) ⟨v, none, false, false⟩).err then
          none
        else some ((rest ++ [v]).foldl (pipStepStrict p.1 p.2) ⟨v, none, false, false⟩).inside) :=
      rfl
    have hf : point_in_polygon p (v :: rest) =
        (if ((rest ++ [v]).foldl (pipStep p.1 p.2) ⟨v, none, false, false⟩).err then
          none
        else some ((rest ++ [v]).foldl (pipStep p.1 p.2) ⟨v, none, false, false⟩).inside) :=
      rfl
    rw [hs, hf, hsw]
  · exact ⟨pipFresh p (v :: rest), point_in_polygon_eq_fresh p v rest⟩

/-! ## Claim theorems for the engine (C4, C5, C9, and the amended C6) -/

/-- C4: in one invocation, `commit` is issued exactly once, only after all
boundaries have been processed (it is the final event, appended after the
whole per-boundary loop, whose own trace contains no commit), and only if
the run is not a dry run and at least one row was affected. -/
theorem c4_commit_discipline (features : List (String × Feature))
    (min_zoom max_zoom batch : ℕ) (dry : Bool) (store : List TileKey)
    (hb : 0 < batch) :
    ∃ s t body,
      process_all_features features min_zoom max_zoom dry batch store =
        some (s, t, body) ∧
      Event.commit ∉ body ∧
      process_features_trace features min_zoom max_zoom dry batch store =
        some (s, t, body ++ (if dry = false ∧ 0 < t then [Event.commit] else [])) := by
  rcases dry with _ | _
  · obtain ⟨s', t, body, h1, h2, h3, _, _⟩ :=
      process_features_trace_nondry features min_zoom max_zoom batch store
    refine ⟨s', t, body, h1, fun hmem => (h3 Event.commit hmem) rfl, ?_⟩
    rw [h2]
    by_cases ht : 0 < t
    · simp [ht]
    · simp [ht]
  · have h1 : process_all_features features min_zoom max_zoom true batch store =
        some (store, submitted_total features min_zoom max_zoom, []) := by
      unfold process_all_features submitted_total
      rw [process_all_features_dry min_zoom max_zoom batch features (store, 0, [])]
      simp
    refine ⟨store, submitted_total features min_zoom max_zoom, [], h1, by simp, ?_⟩
    rw [process_features_trace_dry]
    simp

theorem c4_commit_discipline_witness :
    0 < 1000 ∧
    ∃ s t body,
      process_all_features [] 0 22 false 1000 [] = some (s, t, body) ∧
      Event.commit ∉ body ∧
      process_features_trace [] 0 22 false 1000 [] =
        some (s, t, body ++ (if false = false ∧ 0 < t then [Event.commit] else [])) :=
  ⟨by norm_num, c4_commit_discipline [] 0 22 1000 false [] (by norm_num)⟩

/-- C5: a dry-run invocation leaves the store (count and contents)
unchanged; no DELETE statement is executed and no commit is issued (the
event trace is empty). -/
theorem c5_dry_run_non_mutation (features : List (String × Feature))
    (min_zoom max_zoom batch : ℕ) (store : List TileKey) (hb : 0 < batch) :
    ∃ t, process_features_trace features min_zoom max_zoom true batch store =
        some (store, t, []) ∧
      process_features features min_zoom max_zoom true batch store = some (store, t) := by
  refine ⟨submitted_total features min_zoom max_zoom, process_features_trace_dry _ _ _ _ _, ?_⟩
  unfold process_features
  rw [process_features_trace_dry]
  rfl

theorem c5_dry_run_non_mutation_witness :
    0 < 1000 ∧
    ∃ t, process_features_trace [] 0 22 true 1000 [((2 : ℤ), (0 : ℤ), (0 : ℤ))] =
        some ([((2 : ℤ), (0 : ℤ), (0 : ℤ))], t, []) ∧
      process_features [] 0 22 true 1000 [((2 : ℤ), (0 : ℤ), (0 : ℤ))] =
        some ([((2 : ℤ), (0 : ℤ), (0 : ℤ))], t) :=
  ⟨by norm_num, c5_dry_run_non_mutation [] 0 22 1000 [((2 : ℤ), (0 : ℤ), (0 : ℤ))] (by norm_num)⟩

/-- C6 amended: both modes submit exactly the same coordinates (a function
of the boundaries and zoom range only).  The dry-run total counts every
submitted coordinate once, regardless of the store contents — it equals
`submitted_total` — while the non-dry-run total counts only coordinates
whose DELETE removed a row, so it never exceeds the dry-run total. -/
theorem c6_dry_total_bounds_real_total (features : List (String × Feature))
    (min_zoom max_zoom batch : ℕ) (store : List TileKey) (hb : 0 < batch) :
    process_features features min_zoom max_zoom true batch store =
      some (store, submitted_total features min_zoom max_zoom) ∧
    ∃ s' t, process_features features min_zoom max_zoom false batch store =
        some (s', t) ∧ t ≤ submitted_total features min_zoom max_zoom := by
  constructor
  · unfold process_features
    rw [process_features_trace_dry]
    rfl
  · obtain ⟨s', t, body, _, h2, _, h4, _⟩ :=
      process_features_trace_nondry features min_zoom max_zoom batch store
    refine ⟨s', t, ?_, h4⟩
    unfold process_features
    rw [h2]
    rfl

theorem c6_dry_total_bounds_real_total_witness :
    0 < 1000 ∧
    (process_features [] 2 2 true 1000 [] = some ([], submitted_total [] 2 2) ∧
     ∃ s' t, process_features [] 2 2 false 1000 [] = some (s', t) ∧
       t ≤ submitted_total [] 2 2) :=
  ⟨by norm_num, c6_dry_total_bounds_real_total [] 2 2 1000 [] (by norm_num)⟩

/-- C9: in non-dry-run mode, on a store whose rows are pairwise distinct
(the `(zoom, column, row)` key is unique in an MBTiles `tiles` table), the
returned total equals the number of rows actually removed: final count +
total = initial count.  A coordinate deleted by an earlier feature reports
`rowcount = 0` on a repeated DELETE and contributes nothing. -/
theorem c9_total_equals_rows_removed (features : List (String × Feature))
    (min_zoom max_zoom batch : ℕ) (store : List TileKey) (hb : 0 < batch)
    (hnd : store.Nodup) :
    ∃ s' t, process_features features min_zoom max_zoom false batch store =
        some (s', t) ∧ s'.length + t = store.length ∧ s'.Nodup := by
  obtain ⟨s', t, body, _, h2, _, _, h5⟩ :=
    process_features_trace_nondry features min_zoom max_zoom batch store
  obtain ⟨h6, h7⟩ := h5 hnd
  refine ⟨s', t, ?_, h7, h6⟩
  unfold process_features
  rw [h2]
  rfl

theorem c9_total_equals_rows_removed_witness :
    (0 < 1000 ∧ ([((2 : ℤ), (0 : ℤ), (0 : ℤ))] : List TileKey).Nodup) ∧
    ∃ s' t, process_features [] 0 22 false 1000 [((2 : ℤ), (0 : ℤ), (0 : ℤ))] =
        some (s', t) ∧ s'.length + t = 1 ∧ s'.Nodup :=
  ⟨⟨by norm_num, by simp⟩,
    c9_total_equals_rows_removed [] 0 22 1000 [((2 : ℤ), (0 : ℤ), (0 : ℤ))]
      (by norm_num) (by simp)⟩

/-! ## Claim theorems for the coordinate transforms and scenario A
(C1, C2, C3, and the C6 counterexample) -/

/-- C1: for a store holding exactly the full 4×4 tile grid at zoom 2 and a
single boundary whose ring is `[(-180,-85),(0,-85),(0,85),(-180,85),
(-180,-85)]`, a non-dry-run `process_features` over the zoom range `[2, 2]`
returns `8` and leaves exactly 8 rows in the store (columns 2 and 3, all
four rows each). -/
theorem c1_scenario_a_cut :
    process_features [("test", scenAFeature)] 2 2 false 1000 scenAStore16 =
      some (scenAStore8, 8) ∧ scenAStore8.length = 8 :=
  ⟨scenA_features_full, by decide⟩

/-- C2 counterexample: at the bbox `[0, -86, 0, -86]` and zoom 0 the
enumeration returns the single pair `(0, -1)` whose row `-1` lies outside
`[0, 2⁰ − 1]`, because the Web-Mercator clamp `±85.05112878` sits slightly
beyond the latitude `arctan (sinh π)` whose Mercator ordinate is `π`. -/
theorem c2_enumeration_counterexample :
    get_tiles_in_bbox (0, -86, 0, -86) 0 = [(0, -1)] ∧
      ¬ (0 ≤ (-1 : ℤ) ∧ (-1 : ℤ) ≤ 2 ^ 0 - 1) := by
  constructor
  · rw [get_tiles_in_bbox_eq_product]
    dsimp only
    rw [lon_zero_zoom0, lat_m86_zoom0]
    decide
  · decide

/-- C2 (amended): for a bbox whose bottom and top latitudes lie within
`±85.05°` (inside the clamp band) and `l ≤ r`, the enumeration returns
exactly `(colMax − colMin + 1) · (rowMax − rowMin + 1)` distinct pairs,
each with column and row within `[0, 2^z − 1]`. -/
theorem c2_enumeration_amended (l b r t : ℝ) (z : ℕ) (hz : z ≤ 22) (hlr : l ≤ r)
    (hb1 : -85.05 ≤ b) (hb2 : b ≤ 85.05) (ht1 : -85.05 ≤ t) (ht2 : t ≤ 85.05) :
    (get_tiles_in_bbox (l, b, r, t) z).length =
      (lon_to_tile_x r z - lon_to_tile_x l z + 1).toNat *
      (max (lat_to_tile_y t z) (lat_to_tile_y b z) -
       min (lat_to_tile_y t z) (lat_to_tile_y b z) + 1).toNat ∧
    (get_tiles_in_bbox (l, b, r, t) z).Nodup ∧
    ∀ p ∈ get_tiles_in_bbox (l, b, r, t) z,
      0 ≤ p.1 ∧ p.1 ≤ 2 ^ z - 1 ∧ 0 ≤ p.2 ∧ p.2 ≤ 2 ^ z - 1 := by
  rw [get_tiles_in_bbox_eq_product]
  refine ⟨?_, List.Nodup.product (intRange_nodup _ _) (intRange_nodup _ _), ?_⟩
  · rw [List.length_product, intRange_length, intRange_length]
    congr 1
    · congr 1
      ring
    · congr 1
      ring
  · rintro ⟨px, py⟩ hp
    rw [List.mem_product, mem_intRange, mem_intRange] at hp
    obtain ⟨⟨hx1, hx2⟩, hy1, hy2⟩ := hp
    have hxl := lon_to_tile_x_range l z
    have hxr := lon_to_tile_x_range r z
    have hyb := lat_to_tile_y_range b z hb1 hb2
    have hyt := lat_to_tile_y_range t z ht1 ht2
    refine ⟨le_trans hxl.1 hx1, le_trans hx2 hxr.2, ?_, ?_⟩
    · exact le_trans (le_min hyt.1 hyb.1) hy1
    · exact le_trans hy2 (max_le hyt.2 hyb.2)

/-- Witness for C2 (amended) at the degenerate bbox `[0, 0, 0, 0]`, zoom 0. -/
theorem c2_enumeration_amended_witness :
    (get_tiles_in_bbox (0, 0, 0, 0) 0).length =
      (lon_to_tile_x 0 0 - lon_to_tile_x 0 0 + 1).toNat *
      (max (lat_to_tile_y 0 0) (lat_to_tile_y 0 0) -
       min (lat_to_tile_y 0 0) (lat_to_tile_y 0 0) + 1).toNat ∧
    (get_tiles_in_bbox (0, 0, 0, 0) 0).Nodup ∧
    ∀ p ∈ get_tiles_in_bbox (0, 0, 0, 0) 0,
      0 ≤ p.1 ∧ p.1 ≤ 2 ^ 0 - 1 ∧ 0 ≤ p.2 ∧ p.2 ≤ 2 ^ 0 - 1 :=
  c2_enumeration_amended 0 0 0 0 0 (by norm_num) le_rfl (by norm_num) (by norm_num)
    (by norm_num) (by norm_num)

/-- C3: for every zoom `z ≤ 22` and every valid column and bottom-origin row
at that zoom, converting the tile's center back to tile coordinates recovers
the same tile. -/
theorem c3_center_round_trip (z : ℕ) (col row : ℤ) (hz : z ≤ 22)
    (hc1 : 0 ≤ col) (hc2 : col ≤ 2 ^ z - 1) (hr1 : 0 ≤ row) (hr2 : row ≤ 2 ^ z - 1) :
    lon_to_tile_x (tile_center_lonlat z col row).1 z = col ∧
    lat_to_tile_y (tile_center_lonlat z col row).2 z = row := by
  constructor
  · have h1 : (tile_center_lonlat z col row).1 = ((col : ℝ) + 0.5) / 2 ^ z * 360 - 180 := by
      simp only [tile_center_lonlat]
    rw [h1]
    exact lon_to_tile_x_center z col hc1 hc2
  · have h2 : (tile_center_lonlat z col row).2 =
        Real.arctan (Real.sinh (Real.pi *
          (1 - 2 * ((((2 : ℝ) ^ z - 1) - (row : ℝ) + 0.5) / 2 ^ z)))) * 180 / Real.pi := by
      simp only [tile_center_lonlat]
    rw [h2]
    exact lat_to_tile_y_center z row hz hr1 hr2

/-- Witness for C3 at zoom 2, column 1, row 2. -/
theorem c3_center_round_trip_witness :
    lon_to_tile_x (tile_center_lonlat 2 1 2).1 2 = 1 ∧
    lat_to_tile_y (tile_center_lonlat 2 1 2).2 2 = 2 :=
  c3_center_round_trip 2 1 2 (by norm_num) (by norm_num) (by norm_num) (by norm_num)
    (by norm_num)

/-- C6 counterexample: on the empty store, a dry run of scenario A reports a
total of 8 while a non-dry run of the same boundaries reports 0 — the dry
total counts submitted coordinates, the real total counts rows actually
removed, so the two runs do not return equal totals on every initial
store. -/
theorem c6_dry_equals_real_counterexample :
    process_features [("test", scenAFeature)] 2 2 true 1000 [] = some ([], 8) ∧
    process_features [("test", scenAFeature)] 2 2 false 1000 [] = some ([], 0) ∧
    (8 : ℕ) ≠ 0 :=
  ⟨scenA_features_dry_empty, scenA_features_real_empty, by norm_num⟩

end Planetutils
